import Mathlib

/-!
Verification development for the compdb tool (src/main.rs): a shallow
embedding of its core functions (include extraction, include-directory
extraction, include resolution with caches, the header-discovery
traversal, and manifest collection), together with theorems settling the
frozen claims about the tool's specification.

Modelling conventions:
* Filesystem state (existence, canonicalization, file contents) is a
  pure snapshot `FSModel`; the code only reads the filesystem.
* Rust `PathBuf`/`Path` values are strings; `Path::join`, `Path::parent`,
  `Path::extension`, `Path::starts_with` (component-wise) and the string
  tests of `is_system_path` are modelled over the string form.
* `DashMap` is an association list threaded through state;
  `DashMap::insert` replaces the value of an existing key in place and
  returns the old value, exactly as in Rust.
* The concurrent work-stealing traversal is modelled as a sequential
  work-list algorithm in which each step removes an arbitrary
  (schedule-chosen) element of the work list and processes it fully;
  thread interleavings are represented by schedules.
-/

/-! ## Association lists (model of DashMap) -/

/-- Lookup in an association list (model of `DashMap::get`). -/
def lookupKV {α β : Type} [DecidableEq α] (k : α) : List (α × β) → Option β
  | [] => none
  | (k', v') :: rest => if k = k' then some v' else lookupKV k rest

/-- Insert into an association list, replacing the value of an existing key
in place and returning the old value (model of `DashMap::insert`). -/
def insertKV {α β : Type} [DecidableEq α] (k : α) (v : β) :
    List (α × β) → List (α × β) × Option β
  | [] => ([(k, v)], none)
  | (k', v') :: rest =>
    if k = k' then ((k, v) :: rest, some v')
    else
      let r := insertKV k v rest
      ((k', v') :: r.1, r.2)

/-- The keys of an association list. -/
def keysOf {α β : Type} (l : List (α × β)) : List α := l.map Prod.fst

theorem lookupKV_insertKV_self {α β : Type} [DecidableEq α] (k : α) (v : β)
    (l : List (α × β)) : lookupKV k (insertKV k v l).1 = some v := by
  induction l with
  | nil => simp [insertKV, lookupKV]
  | cons hd tl ih =>
    obtain ⟨k', v'⟩ := hd
    by_cases h : k = k' <;> simp [insertKV, lookupKV, h, ih]

theorem lookupKV_insertKV_ne {α β : Type} [DecidableEq α] (k k₀ : α) (v : β)
    (l : List (α × β)) (hne : k₀ ≠ k) :
    lookupKV k₀ (insertKV k v l).1 = lookupKV k₀ l := by
  induction l with
  | nil => simp [insertKV, lookupKV, hne]
  | cons hd tl ih =>
    obtain ⟨k', v'⟩ := hd
    by_cases h : k = k'
    · subst h; simp [insertKV, lookupKV, hne]
    · by_cases h0 : k₀ = k' <;> simp [insertKV, lookupKV, h, h0, ih]

theorem insertKV_old {α β : Type} [DecidableEq α] (k : α) (v : β)
    (l : List (α × β)) : (insertKV k v l).2 = lookupKV k l := by
  induction l with
  | nil => simp [insertKV, lookupKV]
  | cons hd tl ih =>
    obtain ⟨k', v'⟩ := hd
    by_cases h : k = k' <;> simp [insertKV, lookupKV, h, ih]

theorem keysOf_insertKV {α β : Type} [DecidableEq α] (k : α) (v : β)
    (l : List (α × β)) :
    keysOf (insertKV k v l).1 = if k ∈ keysOf l then keysOf l else keysOf l ++ [k] := by
  induction l with
  | nil => simp [insertKV, keysOf]
  | cons hd tl ih =>
    obtain ⟨k', v'⟩ := hd
    by_cases h : k = k'
    · subst h; simp [insertKV, keysOf]
    · simp only [insertKV, keysOf, List.map_cons, if_neg h]
      by_cases hm : k ∈ keysOf tl <;>
        simp_all [keysOf, List.mem_cons, Ne.symm h]

theorem mem_keysOf_insertKV {α β : Type} [DecidableEq α] (k k₀ : α) (v : β)
    (l : List (α × β)) :
    k₀ ∈ keysOf (insertKV k v l).1 ↔ k₀ ∈ keysOf l ∨ k₀ = k := by
  rw [keysOf_insertKV]
  by_cases hm : k ∈ keysOf l
  · simp only [if_pos hm]
    constructor
    · exact fun h => Or.inl h
    · rintro (h | rfl)
      · exact h
      · exact hm
  · simp [if_neg hm, or_comm]

theorem nodup_keysOf_insertKV {α β : Type} [DecidableEq α] (k : α) (v : β)
    (l : List (α × β)) (h : (keysOf l).Nodup) :
    (keysOf (insertKV k v l).1).Nodup := by
  rw [keysOf_insertKV]
  by_cases hm : k ∈ keysOf l
  · simpa [hm] using h
  · simp only [if_neg hm]
    refine List.Nodup.append h (List.nodup_singleton k) ?_
    intro a ha hb
    rw [List.mem_singleton] at hb
    exact hm (hb ▸ ha)

theorem lookupKV_eq_none_iff {α β : Type} [DecidableEq α] (k : α)
    (l : List (α × β)) : lookupKV k l = none ↔ k ∉ keysOf l := by
  induction l with
  | nil => simp [lookupKV, keysOf]
  | cons hd tl ih =>
    obtain ⟨k', v'⟩ := hd
    by_cases h : k = k' <;> simp [lookupKV, keysOf, h, ih]

theorem lookupKV_isSome_of_mem {α β : Type} [DecidableEq α] {k : α} {v : β}
    {l : List (α × β)} : (k, v) ∈ l → (lookupKV k l).isSome := by
  induction l with
  | nil => intro h; cases h
  | cons hd tl ih =>
    intro h
    obtain ⟨k', v'⟩ := hd
    by_cases hk : k = k'
    · simp [lookupKV, hk]
    · have h' : (k, v) ∈ tl := by
        rcases List.mem_cons.mp h with h0 | h0
        · exact absurd (congrArg Prod.fst h0) hk
        · exact h0
      simp [lookupKV, hk, ih h']

theorem mem_of_lookupKV_eq_some {α β : Type} [DecidableEq α] {k : α} {v : β}
    {l : List (α × β)} : lookupKV k l = some v → (k, v) ∈ l := by
  induction l with
  | nil => intro h; simp [lookupKV] at h
  | cons hd tl ih =>
    intro h
    obtain ⟨k', v'⟩ := hd
    by_cases hk : k = k'
    · rw [lookupKV, if_pos hk] at h
      have hv : v' = v := Option.some_injective _ h
      rw [hk, ← hv]
      exact List.mem_cons_self _ _
    · rw [lookupKV, if_neg hk] at h
      exact List.mem_cons_of_mem _ (ih h)

theorem mem_insertKV {α β : Type} [DecidableEq α] {k₀ : α} {v₀ : β}
    (k : α) (v : β) (l : List (α × β)) :
    (k₀, v₀) ∈ (insertKV k v l).1 →
    (k₀, v₀) ∈ l ∨ (k₀, v₀) = (k, v) := by
  induction l with
  | nil =>
    intro h
    simp only [insertKV, List.mem_singleton] at h
    exact Or.inr h
  | cons hd tl ih =>
    intro h
    obtain ⟨k', v'⟩ := hd
    by_cases hk : k = k'
    · rw [insertKV, if_pos hk] at h
      rcases List.mem_cons.mp h with h0 | h0
      · exact Or.inr h0
      · exact Or.inl (List.mem_cons_of_mem _ h0)
    · rw [insertKV, if_neg hk] at h
      rcases List.mem_cons.mp h with h0 | h0
      · exact Or.inl (h0 ▸ List.mem_cons_self _ _)
      · rcases ih h0 with h' | h'
        · exact Or.inl (List.mem_cons_of_mem _ h')
        · exact Or.inr h'

/-! ## Character-level string helpers

Rust string and path operations are modelled over `List Char` so that all
definitions evaluate by kernel reduction. -/

/-- Split a character list at every occurrence of `sep`. -/
def splitOnChar (sep : Char) : List Char → List (List Char)
  | [] => [[]]
  | c :: rest =>
    let r := splitOnChar sep rest
    if c = sep then [] :: r
    else
      match r with
      | [] => [[c]]
      | seg :: segs => (c :: seg) :: segs

/-- The segments of a path, split at `/` (empty segments kept so that an
absolute path is recognizable by its leading empty segment). -/
def pathSegs (s : String) : List (List Char) := splitOnChar '/' s.data

/-- Whether a string starts with `/` (an absolute path). -/
def isAbsolute (s : String) : Bool :=
  match s.data with
  | '/' :: _ => true
  | _ => false

/-- Model of Rust `Path::join dir p`: an absolute `p` replaces `dir`;
otherwise `p` is appended with a `/` separator. -/
def pathJoin (dir p : String) : String :=
  if isAbsolute p then p
  else if dir = "" then p
  else if dir.data.getLast? = some '/' then dir ++ p
  else dir ++ "/" ++ p

/-- Interleave `/` between segments (inverse of `splitOnChar '/'`). -/
def joinSegs : List (List Char) → List Char
  | [] => []
  | [seg] => seg
  | seg :: rest => seg ++ '/' :: joinSegs rest

/-- Model of Rust `source_file.parent().unwrap_or(Path::new(""))`: drop the
last path component; the root's parent and a single relative component's
parent are `""`/`"/"` as in Rust. -/
def parentDir (s : String) : String :=
  let segs := pathSegs s
  let parent := String.mk (joinSegs segs.dropLast)
  if parent = "" ∧ isAbsolute s ∧ s ≠ "/" then "/" else parent

/-- Model of Rust `Path::extension`: the part of the final component after
its last `.`; `none` when there is no `.` or the only `.` is leading. -/
def extension (s : String) : Option String :=
  let name := (pathSegs s).getLastD s.data
  match splitOnChar '.' name with
  | [] => none
  | [_] => none
  | first :: rest =>
    if first = [] ∧ rest.length = 1 then none
    else (rest.getLast?).map String.mk

/-- Components of a path in the sense of Rust `Path::components`
(used by `Path::starts_with`): the root marker followed by the nonempty
segments. -/
def pathComponents (s : String) : List (List Char) :=
  (if isAbsolute s then [['/']] else []) ++ (pathSegs s).filter (· ≠ [])

/-- Model of Rust `Path::starts_with`: component-wise prefix test. -/
def pathStartsWith (p base : String) : Bool :=
  (pathComponents base).isPrefixOf (pathComponents p)

/-- Whether `pat` occurs as a contiguous substring of `s`
(model of Rust `str::contains`). -/
def strContains (s pat : String) : Bool :=
  go s.data
where
  go : List Char → Bool
    | [] => pat.data.isPrefixOf []
    | c :: rest => pat.data.isPrefixOf (c :: rest) || go rest

/-- Model of Rust `str::starts_with` (plain string prefix). -/
def strStartsWith (s pat : String) : Bool := pat.data.isPrefixOf s.data

/-- Unicode whitespace, as matched both by the regex class `\s` and by
Rust `char::is_whitespace`. -/
def isWsChar (c : Char) : Bool :=
  (9 ≤ c.val && c.val ≤ 13) || c.val = 32 || c.val = 0x85 || c.val = 0xA0 ||
  c.val = 0x1680 || (0x2000 ≤ c.val && c.val ≤ 0x200A) || c.val = 0x2028 ||
  c.val = 0x2029 || c.val = 0x202F || c.val = 0x205F || c.val = 0x3000

/-- Split a character list at every character satisfying `p`. -/
def splitOnPred (p : Char → Bool) : List Char → List (List Char)
  | [] => [[]]
  | c :: rest =>
    let r := splitOnPred p rest
    if p c then [] :: r
    else
      match r with
      | [] => [[c]]
      | seg :: segs => (c :: seg) :: segs

/-- Model of Rust `str::split_whitespace`: the maximal nonempty runs of
non-whitespace characters. -/
def splitWhitespace (s : String) : List String :=
  ((splitOnPred isWsChar s.data).filter (· ≠ [])).map String.mk

/-! ## Data model -/

/-- Model of the `CompileCommand` struct (one build-manifest entry). -/
structure CompileCommand where
  directory : String
  file : String
  command : Option String
  arguments : Option (List String)
  output : Option String
deriving DecidableEq

/-- The filesystem snapshot the tool reads: existence tests,
canonicalization (`fs::canonicalize(..).ok().and_then(|p| p.to_str())`,
`none` covering both the error and the non-UTF-8 case), and file
contents (`fs::read_to_string`, `none` for a read failure). -/
structure FSModel where
  exists_ : String → Bool
  canonicalize : String → Option String
  read : String → Option String

/-! ## Include Extractor (`extract_includes`)

The source runs `captures_iter` of the compiled regex
`\s*#\s*include\s+[<"]([^>"]+)[>"]` over the file contents and collects
capture group 1 of every (leftmost, non-overlapping) match.  The scanner
below is that behavior: a match of the pattern exists at a given start
position exactly when a `#` occurs there (possibly preceded by whitespace
absorbed by the leading `\s*`, which never changes the captured token or
the continuation point past the closing delimiter, since a `#` inside a
whitespace run would itself head an earlier match), followed by `\s*`,
the literal `include`, `\s+`, an opening `<` or `"`, one or more
characters other than `>`/`"` (the capture), and a closing `>` or `"`.
All the repetitions are forced (no backtracking ambiguity): each of
`\s*`/`\s+` is followed by a non-whitespace requirement and `[^>"]+` is
followed by the complementary class `[>"]`. -/

/-- Drop the leading whitespace run (the regex `\s*`). -/
def dropWs : List Char → List Char
  | [] => []
  | c :: rest => if isWsChar c then dropWs rest else c :: rest

/-- Match the literal `include`. -/
def expectInclude : List Char → Option (List Char)
  | 'i' :: 'n' :: 'c' :: 'l' :: 'u' :: 'd' :: 'e' :: rest => some rest
  | _ => none

/-- Whether a character may appear in a captured token (`[^>"]`). -/
def isTokChar (c : Char) : Bool := !(c = '>' || c = '"')

/-- Try to complete a match right after a `#`: `\s*`, `include`, `\s+`,
`[<"]`, a nonempty token of `[^>"]` characters, `[>"]`.  Returns the
captured token and the characters after the closing delimiter. -/
def tryTail (cs : List Char) : Option (String × List Char) :=
  match expectInclude (dropWs cs) with
  | none => none
  | some cs1 =>
    match cs1 with
    | [] => none
    | c :: cs2 =>
      if isWsChar c then
        match dropWs cs2 with
        | [] => none
        | d :: cs3 =>
          if d = '<' || d = '"' then
            match cs3.takeWhile isTokChar with
            | [] => none
            | tok =>
              match cs3.dropWhile isTokChar with
              | [] => none
              | _ :: rest => some (String.mk tok, rest)
          else none
      else none

/-- One scanner step per remaining character: at each `#`, attempt
`tryTail`; on success emit the token and resume after the closing
delimiter, otherwise continue with the next character.  `fuel` only
bounds the recursion; `fuel > length` always suffices. -/
def scanIncludes : Nat → List Char → List String
  | 0, _ => []
  | _ + 1, [] => []
  | fuel + 1, c :: cs =>
    if c = '#' then
      match tryTail cs with
      | some tr => tr.1 :: scanIncludes fuel tr.2
      | none => scanIncludes fuel cs
    else scanIncludes fuel cs

/-- Model of `extract_includes`: all captures of the include regex over
the file contents, in source order. -/
def extract_includes (content : String) : List String :=
  scanIncludes (content.data.length + 1) content.data

/-! ## Path Classifier (`is_system_path`) and `is_system_header` -/

/-- Model of `is_system_path`: the string heuristic applied to raw
`-I` directory arguments. -/
def is_system_path (path : String) : Bool :=
  strStartsWith path "/usr/" || strStartsWith path "/opt/" ||
  strContains path "toolchain" || strContains path "sysroot" ||
  strContains path "gcc" || strContains path "clang"

/-- Model of `is_system_header`: a resolved header is treated as system
exactly when its path starts (component-wise) with one of the collected
system include directories. -/
def is_system_header (header_path : String) (system_dirs : List String) : Bool :=
  system_dirs.any (fun sys_dir => pathStartsWith header_path sys_dir)

/-! ## Include-directory extraction
(`extract_include_directories_for_command`)

The source accumulates `-I`/`-isystem` directories into two `FxHashSet`s
and returns `set.into_iter().collect()` for each.  A hash set forgets
insertion order: its iteration order is a function of the element set
(determined by the hash values), not of the order or multiplicity of
insertions.  The model therefore records the insertion sequence with
duplicates dropped (the set contents, tagged with first-insertion order
as bookkeeping) and applies an explicit enumeration function standing
for `into_iter().collect()`.  Theorems about iteration order quantify
over enumeration functions that depend only on the element set
(`SetRespecting`); concrete executions instantiate the enumeration with
`id`, which claims below only rely on for sets of at most one element,
where every enumeration agrees. -/

/-- `HashSet::insert`: no-op when the element is present. -/
def hsInsert (l : List String) (x : String) : List String :=
  if x ∈ l then l else l ++ [x]

/-- `HashSet::extend`: insert each element in turn. -/
def hsExtend (l : List String) (xs : List String) : List String :=
  xs.foldl hsInsert l

/-- An enumeration function that could be `into_iter().collect()` of a
hash set: its output depends only on the set of elements of its input. -/
def SetRespecting (e : List String → List String) : Prop :=
  ∀ l l', (∀ x : String, x ∈ l ↔ x ∈ l') → e l = e l'

/-- The scan of the argument vector: `-I <dir>` and `-I<dir>` are
bucketed by `is_system_path`, `-isystem <dir>` is always system.
Returns the two insertion sequences (hash-set contents). -/
def scanArgsForDirs : List String → List String → List String →
    List String × List String
  | [], proj, sys => (proj, sys)
  | a :: rest, proj, sys =>
    if a = "-I" then
      match rest with
      | b :: rest' =>
        if is_system_path b then scanArgsForDirs rest' proj (hsInsert sys b)
        else scanArgsForDirs rest' (hsInsert proj b) sys
      | [] =>
        -- `args[i] == "-I"` with no following argument: the first branch's
        -- bounds check fails, the `starts_with("-I")` branch sees an empty
        -- `path_str` and skips it.
        (proj, sys)
    else if strStartsWith a "-I" then
      let path_str := String.mk (a.data.drop 2)
      if path_str = "" then scanArgsForDirs rest proj sys
      else if is_system_path path_str then
        scanArgsForDirs rest proj (hsInsert sys path_str)
      else scanArgsForDirs rest (hsInsert proj path_str) sys
    else if a = "-isystem" then
      match rest with
      | b :: rest' => scanArgsForDirs rest' proj (hsInsert sys b)
      | [] => (proj, sys)
    else scanArgsForDirs rest proj sys

/-- Model of `extract_include_directories_for_command`, parametrized by
the hash-set enumeration functions (see the section comment). -/
def extract_include_directories_for_command
    (enumP enumS : List String → List String) (cmd : CompileCommand) :
    List String × List String :=
  match cmd.arguments with
  | some args =>
    let ps := scanArgsForDirs args [] []
    (enumP ps.1, enumS ps.2)
  | none =>
    match cmd.command with
    | some command =>
      let ps := scanArgsForDirs (splitWhitespace command) [] []
      (enumP ps.1, enumS ps.2)
    | none => ([], [])

/-! ## Existence cache + Include Resolver (`resolve_header_path`)

The global statics `DIR_TO_ID`/`NEXT_DIR_ID` and the two caches are
threaded through a `ResolveState`. -/

/-- The mutable state the resolver touches: the directory interner
(`DIR_TO_ID` with its `NEXT_DIR_ID` counter), the resolution cache keyed
by `(include token, directory id)`, and the existence cache keyed by
candidate path. -/
structure ResolveState where
  dirToId : List (String × Nat)
  nextDirId : Nat
  resolveCache : List ((String × Nat) × Option String)
  existsCache : List (String × Bool)
deriving DecidableEq

/-- The all-empty initial state (process start). -/
def emptyResolveState : ResolveState :=
  { dirToId := [], nextDirId := 0, resolveCache := [], existsCache := [] }

/-- Model of `get_dir_id`: return the interned id of a directory,
allocating the next counter value on first sight. -/
def get_dir_id (path : String) (rs : ResolveState) : Nat × ResolveState :=
  match lookupKV path rs.dirToId with
  | some id => (id, rs)
  | none =>
    let id := rs.nextDirId
    (id, { rs with dirToId := (insertKV path id rs.dirToId).1,
                   nextDirId := rs.nextDirId + 1 })

/-- One `exists_cache.entry(path).or_insert_with(|| path.exists())`
probe. -/
def checkOne (fs : FSModel) (p : String) (ec : List (String × Bool)) :
    Bool × List (String × Bool) :=
  match lookupKV p ec with
  | some b => (b, ec)
  | none => (fs.exists_ p, (insertKV p (fs.exists_ p) ec).1)

/-- Model of `batch_check_exists`: memoized existence of each path in
order, threading the cache. -/
def batch_check_exists (fs : FSModel) :
    List String → List (String × Bool) → List Bool × List (String × Bool)
  | [], ec => ([], ec)
  | p :: ps, ec =>
    let r := checkOne fs p ec
    let rest := batch_check_exists fs ps r.2
    (r.1 :: rest.1, rest.2)

/-- Model of `resolve_header_path`.  The candidate list is the
relative-to-the-including-file candidate followed by one candidate per
search directory; existence is batch-checked through the cache
(`candidate_paths[0]` is the head, checked first).  Note the loop over
the remaining candidates `return`s directly on the first hit, skipping
the final `cache.insert`. -/
def resolve_header_path (fs : FSModel) (inc : String)
    (include_dirs : List String) (source_file : String)
    (rs : ResolveState) : Option String × ResolveState :=
  let source_dir := parentDir source_file
  let idrs := get_dir_id source_dir rs
  let dir_id := idrs.1
  let rs1 := idrs.2
  let key : String × Nat := (inc, dir_id)
  match lookupKV key rs1.resolveCache with
  | some cached => (cached, rs1)
  | none =>
    let relative_path := pathJoin source_dir inc
    let dir_candidates := include_dirs.map (fun dir => pathJoin dir inc)
    let c0 := checkOne fs relative_path rs1.existsCache
    let crest := batch_check_exists fs dir_candidates c0.2
    let rs2 := { rs1 with existsCache := crest.2 }
    if c0.1 then
      let result := fs.canonicalize relative_path
      (result, { rs2 with resolveCache := (insertKV key result rs2.resolveCache).1 })
    else
      match (dir_candidates.zip crest.1).find? (fun x => x.2) with
      | some hit => (fs.canonicalize hit.1, rs2)
      | none =>
        (none, { rs2 with resolveCache := (insertKV key none rs2.resolveCache).1 })

/-- The cache-free resolution function: the first existing candidate, in
order (relative first, then the search directories), canonicalized.
Under consistent caches `resolve_header_path` computes exactly this. -/
def pureResolve (fs : FSModel) (include_dirs : List String) (inc : String)
    (source_dir : String) : Option String :=
  let cands := pathJoin source_dir inc ::
    include_dirs.map (fun dir => pathJoin dir inc)
  match cands.find? fs.exists_ with
  | some c => fs.canonicalize c
  | none => none

/-! ## Traversal Engine (`find_header_files`)

`RunCfg` holds the read-only data the worker loop consults
(`file_to_includes` flattened to project-then-system order, the union of
system dirs, and the filesystem); `RunState` holds the shared mutable
structures (`processed_headers` and the work queue, plus the resolver
state).  A schedule entry picks which work item the next (virtual)
worker step takes; the real program's thread interleavings and
work-stealing orders are particular schedules. -/

structure RunCfg where
  fs : FSModel
  fileToIncludes : List (String × List String)
  allSystemDirs : List String

structure RunState where
  rs : ResolveState
  processed : List (String × String)
  work : List (String × String)
deriving DecidableEq

/-- The extensions accepted by the worker loop's `is_source` test. -/
def scanExts : List String := ["c", "cpp", "cc", "cxx", "h", "hpp", "hh", "hxx"]

/-- The worker's `is_source` test: a known C/C++ source or header
extension, or no extension at all. -/
def isScannable (file_path : String) : Bool :=
  match extension file_path with
  | some ext => scanExts.contains ext
  | none => true

/-- Processing of one extracted include token inside the worker loop:
resolve it; on success insert `(header, context)` into
`processed_headers` (`DashMap::insert`, replacing any previous context)
and, when the header was not previously claimed and is not a system
header, push it onto the work queue. -/
def processInclude (cfg : RunCfg) (context_path : String)
    (include_dirs : List String) (file_path : String)
    (st : RunState) (inc : String) : RunState :=
  let r := resolve_header_path cfg.fs inc include_dirs file_path st.rs
  let st1 := { st with rs := r.2 }
  match r.1 with
  | none => st1
  | some header_path =>
    let ins := insertKV header_path context_path st1.processed
    let st2 := { st1 with processed := ins.1 }
    match ins.2 with
    | some _ => st2
    | none =>
      if is_system_header header_path cfg.allSystemDirs then st2
      else { st2 with work := st2.work ++ [(header_path, context_path)] }

/-- Processing of one work item `(file_to_scan, context)`: skip files
with a foreign extension, look up the context's search directories (skip
when absent), read the file (skip on failure), extract its includes and
process each in order. -/
def processItem (cfg : RunCfg) (st : RunState) (item : String × String) :
    RunState :=
  if !isScannable item.1 then st
  else
    match lookupKV item.2 cfg.fileToIncludes with
    | none => st
    | some include_dirs =>
      match cfg.fs.read item.1 with
      | none => st
      | some content =>
        (extract_includes content).foldl
          (processInclude cfg item.2 include_dirs item.1) st

/-- One scheduled step: remove the work item selected by the schedule
entry (modulo the queue length) and process it.  An empty work queue is
quiescence: the state is final. -/
def stepRun (cfg : RunCfg) (st : RunState) (n : Nat) : RunState :=
  match st.work with
  | [] => st
  | _ :: _ =>
    let i := n % st.work.length
    let item := st.work.getD i ("", "")
    let st' := { st with work := st.work.eraseIdx i }
    processItem cfg st' item

/-- Run the traversal under a given schedule. -/
def runSched (cfg : RunCfg) (sched : List Nat) (st : RunState) : RunState :=
  sched.foldl (stepRun cfg) st

/-! ## Seeding, aggregation, and the full `find_header_files` pass -/

/-- The per-file include-directory map (`file_to_includes`): for each
entry, its project dirs chained before its system dirs.  Built with
`DashMap::insert`, so a repeated `file` keeps the last entry's
directories. -/
def buildFileToIncludes (enumP enumS : List String → List String)
    (cmds : List CompileCommand) : List (String × List String) :=
  cmds.foldl
    (fun m cmd =>
      let ps := extract_include_directories_for_command enumP enumS cmd
      (insertKV cmd.file (ps.1 ++ ps.2) m).1) []

/-- The per-file entry map (`file_to_command`). -/
def buildFileToCommand (cmds : List CompileCommand) :
    List (String × CompileCommand) :=
  cmds.foldl (fun m cmd => (insertKV cmd.file cmd m).1) []

/-- The union of every entry's system directories
(`all_system_dirs_set`, enumerated). -/
def buildAllSystemDirs (enumP enumS : List String → List String)
    (cmds : List CompileCommand) : List String :=
  cmds.foldl
    (fun acc cmd =>
      hsExtend acc (extract_include_directories_for_command enumP enumS cmd).2)
    []

/-- Seeding: one work item per entry whose file has a compilable-source
extension and exists on disk; its context is itself. -/
def seedWork (fs : FSModel) (cmds : List CompileCommand) :
    List (String × String) :=
  cmds.foldl
    (fun w cmd =>
      match extension cmd.file with
      | some ext =>
        if (ext = "c" || ext = "cpp" || ext = "cc" || ext = "cxx") &&
            fs.exists_ cmd.file
        then w ++ [(cmd.file, cmd.file)]
        else w
      | none => w) []

/-- The Aggregator: one synthetic entry per discovered header whose
recorded context maps to a known entry, with `directory`, `command` and
`arguments` copied verbatim, `file` set to the header path and `output`
absent; headers with an unknown context are dropped. -/
def headerCommands (processed : List (String × String))
    (fileToCommand : List (String × CompileCommand)) : List CompileCommand :=
  processed.filterMap
    (fun hc =>
      (lookupKV hc.2 fileToCommand).map
        (fun source_cmd =>
          { directory := source_cmd.directory
            file := hc.1
            command := source_cmd.command
            arguments := source_cmd.arguments
            output := none }))

/-- The run configuration `find_header_files` builds from the manifest. -/
def mkRunCfg (enumP enumS : List String → List String) (fs : FSModel)
    (cmds : List CompileCommand) : RunCfg :=
  { fs := fs
    fileToIncludes := buildFileToIncludes enumP enumS cmds
    allSystemDirs := buildAllSystemDirs enumP enumS cmds }

/-- The initial run state: fresh caches, empty discovery set, seeded
work queue. -/
def initRunState (fs : FSModel) (cmds : List CompileCommand) : RunState :=
  { rs := emptyResolveState, processed := [], work := seedWork fs cmds }

/-- Model of `find_header_files` under a given schedule: run the
traversal to the schedule's end and aggregate the discovery set.  (The
source returns `Ok` unconditionally; the model is total.) -/
def find_header_files (enumP enumS : List String → List String)
    (fs : FSModel) (sched : List Nat) (cmds : List CompileCommand) :
    List CompileCommand :=
  headerCommands
    (runSched (mkRunCfg enumP enumS fs cmds) sched (initRunState fs cmds)).processed
    (buildFileToCommand cmds)

/-! ## Manifest collection (`list_command`)

The manifest serialization format is an external collaborator; parsing
is a parameter (`none` models `serde_json::from_str` failing).  Reading
`compile_commands.json` goes through the same filesystem snapshot;
`fs.read p = none` models `fs::read_to_string` failing. -/

/-- Model of the manifest-collection loop of `list_command`: a missing
`compile_commands.json` is skipped; a present one that cannot be read or
parsed aborts the pass with a descriptive error; parsed entries are
concatenated in order. -/
def list_collect (fs : FSModel)
    (parse : String → Option (List CompileCommand)) :
    List String → Except String (List CompileCommand)
  | [] => Except.ok []
  | build_path :: rest =>
    let p := pathJoin build_path "compile_commands.json"
    if fs.exists_ p = false then list_collect fs parse rest
    else
      match fs.read p with
      | none => Except.error ("Failed to read " ++ p)
      | some content =>
        match parse content with
        | none => Except.error ("Failed to parse JSON from " ++ p)
        | some cmds =>
          match list_collect fs parse rest with
          | Except.ok others => Except.ok (cmds ++ others)
          | Except.error e => Except.error e

/-! ## Resolver lemmas -/

/-- The existence cache only ever holds the snapshot's true answers. -/
def ECConsistent (fs : FSModel) (ec : List (String × Bool)) : Prop :=
  ∀ p b, lookupKV p ec = some b → b = fs.exists_ p

theorem checkOne_fst (fs : FSModel) (p : String) (ec : List (String × Bool))
    (h : ECConsistent fs ec) : (checkOne fs p ec).1 = fs.exists_ p := by
  unfold checkOne
  cases hl : lookupKV p ec with
  | none => rfl
  | some b => exact h p b hl

theorem checkOne_consistent (fs : FSModel) (p : String)
    (ec : List (String × Bool)) (h : ECConsistent fs ec) :
    ECConsistent fs (checkOne fs p ec).2 := by
  unfold checkOne
  cases hl : lookupKV p ec with
  | none =>
    intro q b hq
    by_cases hqp : q = p
    · subst hqp
      rw [lookupKV_insertKV_self] at hq
      exact (Option.some_injective _ hq).symm
    · rw [lookupKV_insertKV_ne _ _ _ _ hqp] at hq
      exact h q b hq
  | some b => exact h

theorem batch_fst (fs : FSModel) (ps : List String)
    (ec : List (String × Bool)) (h : ECConsistent fs ec) :
    (batch_check_exists fs ps ec).1 = ps.map fs.exists_ := by
  induction ps generalizing ec with
  | nil => rfl
  | cons p ps ih =>
    simp only [batch_check_exists, List.map_cons]
    rw [checkOne_fst fs p ec h, ih _ (checkOne_consistent fs p ec h)]

theorem batch_consistent (fs : FSModel) (ps : List String)
    (ec : List (String × Bool)) (h : ECConsistent fs ec) :
    ECConsistent fs (batch_check_exists fs ps ec).2 := by
  induction ps generalizing ec with
  | nil => exact h
  | cons p ps ih => exact ih _ (checkOne_consistent fs p ec h)

theorem find_zip_map (cs : List String) (f : String → Bool) :
    (cs.zip (cs.map f)).find? (fun x => x.2) =
      (cs.find? f).map (fun c => (c, f c)) := by
  induction cs with
  | nil => rfl
  | cons c cs ih =>
    simp only [List.map_cons, List.zip_cons_cons, List.find?]
    cases hf : f c with
    | true => simp [hf]
    | false => simpa [hf] using ih

theorem get_dir_id_resolveCache (p : String) (rs : ResolveState) :
    (get_dir_id p rs).2.resolveCache = rs.resolveCache := by
  unfold get_dir_id
  cases lookupKV p rs.dirToId <;> rfl

theorem get_dir_id_existsCache (p : String) (rs : ResolveState) :
    (get_dir_id p rs).2.existsCache = rs.existsCache := by
  unfold get_dir_id
  cases lookupKV p rs.dirToId <;> rfl

theorem get_dir_id_of_known (p : String) (rs : ResolveState) (id : Nat)
    (h : lookupKV p rs.dirToId = some id) : get_dir_id p rs = (id, rs) := by
  unfold get_dir_id
  rw [h]

/-- On a resolution-cache miss and with a consistent existence cache,
`resolve_header_path` returns exactly the cache-free resolution
`pureResolve`. -/
theorem resolve_eq_pure (fs : FSModel) (inc : String) (dirs : List String)
    (f : String) (rs : ResolveState)
    (hmiss : lookupKV (inc, (get_dir_id (parentDir f) rs).1)
      rs.resolveCache = none)
    (hec : ECConsistent fs rs.existsCache) :
    (resolve_header_path fs inc dirs f rs).1 =
      pureResolve fs dirs inc (parentDir f) := by
  simp only [resolve_header_path, get_dir_id_resolveCache, hmiss,
    get_dir_id_existsCache]
  rw [checkOne_fst fs _ _ hec,
    batch_fst fs _ _ (checkOne_consistent fs _ _ hec)]
  unfold pureResolve
  simp only [List.find?]
  cases hrel : fs.exists_ (pathJoin (parentDir f) inc) with
  | true => simp
  | false =>
    simp only [Bool.false_eq_true, if_false, find_zip_map]
    cases hfind : (dirs.map (fun dir => pathJoin dir inc)).find? fs.exists_ with
    | none => simp
    | some c => simp

/-! ## Concrete filesystem snapshots used by witnesses and
counterexamples -/

/-- A snapshot where the including file's directory and a search
directory both hold `x.h`. -/
def fsRelAndDirHit : FSModel :=
  { exists_ := fun p => p = "/d/x.h" || p = "/p/x.h"
    canonicalize := fun p =>
      if p = "/d/x.h" || p = "/p/x.h" then some p else none
    read := fun _ => none }

/-- A snapshot where only the search directory holds `x.h`. -/
def fsDirHitOnly : FSModel :=
  { exists_ := fun p => p = "/p/x.h"
    canonicalize := fun p => if p = "/p/x.h" then some p else none
    read := fun _ => none }

/-- A snapshot where the relative candidate exists but cannot be
canonicalized (e.g. a dangling symlink), while a search directory holds
a perfectly canonicalizable copy. -/
def fsDanglingRel : FSModel :=
  { exists_ := fun p => p = "/d/x.h" || p = "/p/x.h"
    canonicalize := fun p => if p = "/p/x.h" then some p else none
    read := fun _ => none }

/-- The empty existence cache is consistent with any snapshot. -/
theorem ecConsistent_nil (fs : FSModel) : ECConsistent fs [] := by
  intro p b h
  simp [lookupKV] at h

/-- C2: on a fresh key, resolution first forms the relative candidate
`source_dir / token`; if it exists the resolver returns its
canonicalization regardless of the search directories; if neither it nor
any search-directory candidate exists, resolution returns `none`, and a
`none` resolution leaves the discovery set and the work queue untouched
(no output entry, no failure). -/
theorem claimC2_relative_first_then_dirs_else_none
    (fs : FSModel) (inc : String) (dirs : List String) (f : String)
    (rs : ResolveState)
    (hmiss : lookupKV (inc, (get_dir_id (parentDir f) rs).1)
      rs.resolveCache = none)
    (hec : ECConsistent fs rs.existsCache) :
    (fs.exists_ (pathJoin (parentDir f) inc) = true →
      (resolve_header_path fs inc dirs f rs).1 =
        fs.canonicalize (pathJoin (parentDir f) inc)) ∧
    ((fs.exists_ (pathJoin (parentDir f) inc) = false ∧
        ∀ d ∈ dirs, fs.exists_ (pathJoin d inc) = false) →
      (resolve_header_path fs inc dirs f rs).1 = none) ∧
    (∀ (cfg : RunCfg) (c : String) (st : RunState),
      (resolve_header_path cfg.fs inc dirs f st.rs).1 = none →
      (processInclude cfg c dirs f st inc).processed = st.processed ∧
      (processInclude cfg c dirs f st inc).work = st.work) := by
  refine ⟨?_, ?_, ?_⟩
  · intro hrel
    rw [resolve_eq_pure fs inc dirs f rs hmiss hec]
    simp [pureResolve, List.find?, hrel]
  · rintro ⟨hrel, hdirs⟩
    rw [resolve_eq_pure fs inc dirs f rs hmiss hec]
    have hnone : (List.map (fun dir => pathJoin dir inc) dirs).find?
        fs.exists_ = none := by
      rw [List.find?_eq_none]
      intro x hx
      rcases List.mem_map.mp hx with ⟨d, hd, rfl⟩
      simp [hdirs d hd]
    simp [pureResolve, List.find?, hrel, hnone]
  · intro cfg c st hres
    simp [processInclude, hres]

/-- C2 witness: with `/d/x.h` and `/p/x.h` both existing, the include
`x.h` from `/d/a.c` resolves to the including file's own directory, not
to the `-I` directory. -/
theorem claimC2_witness :
    (resolve_header_path fsRelAndDirHit "x.h" ["/p"] "/d/a.c"
      emptyResolveState).1 = some "/d/x.h" := by
  have h := claimC2_relative_first_then_dirs_else_none fsRelAndDirHit "x.h"
    ["/p"] "/d/a.c" emptyResolveState rfl (ecConsistent_nil _)
  exact (h.1 rfl).trans rfl

/-- C3 counterexample: a call that succeeds through a search directory
returns without recording anything in the resolution cache — after the
call the cache is still empty — contradicting the claim that every call
records its result. -/
theorem claimC3_counterexample :
    (resolve_header_path fsDirHitOnly "x.h" ["/p"] "/d/a.c"
        emptyResolveState).1 = some "/p/x.h" ∧
    (resolve_header_path fsDirHitOnly "x.h" ["/p"] "/d/a.c"
        emptyResolveState).2.resolveCache = [] := by
  constructor <;> rfl

/-- C3 (amended): a cached key is answered from the cache with the state
untouched; on a miss, the result is recorded under
`(token, directory id)` when resolution fails everywhere (an explicit
no-resolution entry) or succeeds at the relative candidate — but a
resolution that succeeds through a search directory returns early and
records nothing. -/
theorem claimC3_amended_cache_behavior
    (fs : FSModel) (inc : String) (dirs : List String) (f : String)
    (rs : ResolveState) (hec : ECConsistent fs rs.existsCache) :
    (∀ id v, lookupKV (parentDir f) rs.dirToId = some id →
      lookupKV (inc, id) rs.resolveCache = some v →
      resolve_header_path fs inc dirs f rs = (v, rs)) ∧
    (lookupKV (inc, (get_dir_id (parentDir f) rs).1) rs.resolveCache = none →
      (fs.exists_ (pathJoin (parentDir f) inc) = true →
        lookupKV (inc, (get_dir_id (parentDir f) rs).1)
            (resolve_header_path fs inc dirs f rs).2.resolveCache =
          some (resolve_header_path fs inc dirs f rs).1) ∧
      ((fs.exists_ (pathJoin (parentDir f) inc) = false ∧
          (dirs.map (fun d => pathJoin d inc)).find? fs.exists_ = none) →
        (resolve_header_path fs inc dirs f rs).1 = none ∧
        lookupKV (inc, (get_dir_id (parentDir f) rs).1)
            (resolve_header_path fs inc dirs f rs).2.resolveCache =
          some none) ∧
      (∀ c, fs.exists_ (pathJoin (parentDir f) inc) = false →
        (dirs.map (fun d => pathJoin d inc)).find? fs.exists_ = some c →
        (resolve_header_path fs inc dirs f rs).1 = fs.canonicalize c ∧
        (resolve_header_path fs inc dirs f rs).2.resolveCache =
          rs.resolveCache)) := by
  constructor
  · intro id v hdir hkey
    simp only [resolve_header_path, get_dir_id_of_known _ _ _ hdir, hkey]
  · intro hmiss
    have hfst : (checkOne fs (pathJoin (parentDir f) inc)
        rs.existsCache).1 = fs.exists_ (pathJoin (parentDir f) inc) :=
      checkOne_fst fs _ _ hec
    have hbatch : (batch_check_exists fs
        (dirs.map (fun dir => pathJoin dir inc))
        (checkOne fs (pathJoin (parentDir f) inc) rs.existsCache).2).1 =
        (dirs.map (fun dir => pathJoin dir inc)).map fs.exists_ :=
      batch_fst fs _ _ (checkOne_consistent fs _ _ hec)
    refine ⟨?_, ?_, ?_⟩
    · intro hrel
      simp only [resolve_header_path, get_dir_id_resolveCache, hmiss,
        get_dir_id_existsCache, hfst, hbatch, hrel, if_true]
      exact lookupKV_insertKV_self _ _ _
    · rintro ⟨hrel, hfind⟩
      simp only [resolve_header_path, get_dir_id_resolveCache, hmiss,
        get_dir_id_existsCache, hfst, hbatch, hrel, find_zip_map, hfind,
        Bool.false_eq_true, if_false, Option.map_none]
      exact ⟨rfl, lookupKV_insertKV_self _ _ _⟩
    · intro c hrel hfind
      simp only [resolve_header_path, get_dir_id_resolveCache, hmiss,
        get_dir_id_existsCache, hfst, hbatch, hrel, find_zip_map, hfind,
        Bool.false_eq_true, if_false, Option.map_some]
      exact ⟨rfl, rfl⟩

/-- C3 witness: a total miss is recorded as an explicit no-resolution
entry under `(token, directory id)`. -/
theorem claimC3_witness :
    (resolve_header_path fsDirHitOnly "y.h" ["/p"] "/d/a.c"
        emptyResolveState).1 = none ∧
    lookupKV ("y.h", 0)
        (resolve_header_path fsDirHitOnly "y.h" ["/p"] "/d/a.c"
          emptyResolveState).2.resolveCache = some none := by
  have h := (claimC3_amended_cache_behavior fsDirHitOnly "y.h" ["/p"]
    "/d/a.c" emptyResolveState (ecConsistent_nil _)).2 rfl
  exact (h.2.1 ⟨rfl, rfl⟩)

/-- C10: when the first candidate that exists on disk cannot be
canonicalized, the resolver returns `none` without falling through to
later candidates — even when a later search directory holds an
existing, canonicalizable copy. -/
theorem claimC10_first_existing_candidate_only
    (fs : FSModel) (inc : String) (dirs : List String) (f : String)
    (rs : ResolveState) (c0 : String)
    (hmiss : lookupKV (inc, (get_dir_id (parentDir f) rs).1)
      rs.resolveCache = none)
    (hec : ECConsistent fs rs.existsCache)
    (hfirst : (pathJoin (parentDir f) inc ::
        dirs.map (fun d => pathJoin d inc)).find? fs.exists_ = some c0)
    (hcanon : fs.canonicalize c0 = none) :
    (resolve_header_path fs inc dirs f rs).1 = none := by
  rw [resolve_eq_pure fs inc dirs f rs hmiss hec]
  simp only [pureResolve]
  rw [hfirst]
  exact hcanon

/-- C10 witness: `/d/x.h` exists but does not canonicalize, `/p/x.h`
exists and would canonicalize fine; the include is dropped anyway. -/
theorem claimC10_witness :
    (resolve_header_path fsDanglingRel "x.h" ["/p"] "/d/a.c"
        emptyResolveState).1 = none ∧
    fsDanglingRel.exists_ "/p/x.h" = true ∧
    fsDanglingRel.canonicalize "/p/x.h" = some "/p/x.h" := by
  refine ⟨?_, rfl, rfl⟩
  exact claimC10_first_existing_candidate_only fsDanglingRel "x.h" ["/p"]
    "/d/a.c" emptyResolveState "/d/x.h" rfl (ecConsistent_nil _) rfl rfl

/-! ## C7: manifest collection error handling -/

/-- Skipping rule: a build directory with no manifest contributes
nothing and cannot affect success or failure. -/
theorem list_collect_skip_missing (fs : FSModel)
    (parse : String → Option (List CompileCommand)) (bp : String)
    (hmiss : fs.exists_ (pathJoin bp "compile_commands.json") = false) :
    ∀ pre post : List String,
      list_collect fs parse (pre ++ bp :: post) =
        list_collect fs parse (pre ++ post) := by
  intro pre
  induction pre with
  | nil =>
    intro post
    show list_collect fs parse (bp :: post) = list_collect fs parse post
    simp [list_collect, hmiss]
  | cons q pre ih =>
    intro post
    show list_collect fs parse (q :: (pre ++ bp :: post)) =
      list_collect fs parse (q :: (pre ++ post))
    simp only [list_collect, ih post]

/-- Abort rule: a present but unreadable-or-unparseable manifest anywhere
in the requested list makes the whole collection an error. -/
theorem list_collect_error_of_bad (fs : FSModel)
    (parse : String → Option (List CompileCommand)) (bp : String)
    (hex : fs.exists_ (pathJoin bp "compile_commands.json") = true)
    (hbad : (fs.read (pathJoin bp "compile_commands.json")).bind parse = none) :
    ∀ paths : List String, bp ∈ paths →
      ∃ msg, list_collect fs parse paths = Except.error msg := by
  intro paths
  induction paths with
  | nil => intro h; cases h
  | cons q rest ih =>
    intro hmem
    by_cases hq : bp = q
    · subst hq
      simp only [list_collect, hex]
      cases hread : fs.read (pathJoin bp "compile_commands.json") with
      | none =>
        exact ⟨"Failed to read " ++ pathJoin bp "compile_commands.json",
          by simp⟩
      | some content =>
        have hparse : parse content = none := by
          rw [hread] at hbad
          exact hbad
        exact ⟨"Failed to parse JSON from " ++
          pathJoin bp "compile_commands.json", by simp [hparse]⟩
    · have hmem' : bp ∈ rest := by
        rcases List.mem_cons.mp hmem with h | h
        · exact absurd h hq
        · exact h
      obtain ⟨msg, hmsg⟩ := ih hmem'
      simp only [list_collect]
      by_cases hqe : fs.exists_ (pathJoin q "compile_commands.json") = false
      · rw [if_pos hqe]
        exact ⟨msg, hmsg⟩
      · rw [if_neg hqe]
        cases hqr : fs.read (pathJoin q "compile_commands.json") with
        | none =>
          exact ⟨"Failed to read " ++ pathJoin q "compile_commands.json", rfl⟩
        | some content =>
          cases hqp : parse content with
          | none =>
            exact ⟨"Failed to parse JSON from " ++
              pathJoin q "compile_commands.json", by simp [hqp]⟩
          | some cmds => exact ⟨msg, by simp [hqp, hmsg]⟩

/-- C7: a requested build directory whose `compile_commands.json` is
absent contributes zero entries and never fails the run (removing it
changes nothing); a directory whose manifest is present but unreadable
or unparseable aborts the whole pass with an error. -/
theorem claimC7_missing_skipped_bad_fatal (fs : FSModel)
    (parse : String → Option (List CompileCommand)) :
    (∀ (pre post : List String) (bp : String),
      fs.exists_ (pathJoin bp "compile_commands.json") = false →
      list_collect fs parse (pre ++ bp :: post) =
        list_collect fs parse (pre ++ post)) ∧
    (∀ (paths : List String) (bp : String), bp ∈ paths →
      fs.exists_ (pathJoin bp "compile_commands.json") = true →
      ((fs.read (pathJoin bp "compile_commands.json")).bind parse = none) →
      ∃ msg, list_collect fs parse paths = Except.error msg) :=
  ⟨fun pre post bp h => list_collect_skip_missing fs parse bp h pre post,
   fun paths bp h1 h2 h3 =>
     list_collect_error_of_bad fs parse bp h2 h3 paths h1⟩

/-- A snapshot with one parseable manifest under `/ok`, one present but
unparseable manifest under `/bad`, and nothing else. -/
def fsManifests : FSModel :=
  { exists_ := fun p => p = "/ok/compile_commands.json" ||
      p = "/bad/compile_commands.json"
    canonicalize := fun _ => none
    read := fun p =>
      if p = "/ok/compile_commands.json" then some "[]"
      else if p = "/bad/compile_commands.json" then some "not json"
      else none }

/-- A parser stub that accepts exactly the text of an empty manifest. -/
def parseEmptyOnly : String → Option (List CompileCommand) :=
  fun content => if content = "[]" then some [] else none

/-- C7 witness: dropping a directory with no manifest leaves the outcome
unchanged, and a directory with an unparseable manifest aborts the
pass. -/
theorem claimC7_witness :
    list_collect fsManifests parseEmptyOnly ["/ok", "/missing"] =
      list_collect fsManifests parseEmptyOnly ["/ok"] ∧
    ∃ msg, list_collect fsManifests parseEmptyOnly ["/ok", "/bad"] =
      Except.error msg := by
  have h := claimC7_missing_skipped_bad_fatal fsManifests parseEmptyOnly
  exact ⟨h.1 ["/ok"] [] "/missing" rfl,
    h.2 ["/ok", "/bad"] "/bad" (by simp) rfl rfl⟩

/-! ## C6: the Aggregator -/

/-- The synthetic entry emitted for a discovered header in context `cmd`. -/
def syntheticEntry (header : String) (cmd : CompileCommand) : CompileCommand :=
  { directory := cmd.directory, file := header, command := cmd.command,
    arguments := cmd.arguments, output := none }

theorem headerCommands_cons_some (h0 c0 : String)
    (rest : List (String × String)) (ftc : List (String × CompileCommand))
    (cmd : CompileCommand) (hl0 : lookupKV c0 ftc = some cmd) :
    headerCommands ((h0, c0) :: rest) ftc =
      syntheticEntry h0 cmd :: headerCommands rest ftc := by
  simp [headerCommands, List.filterMap_cons, hl0, syntheticEntry]

theorem headerCommands_cons_none (h0 c0 : String)
    (rest : List (String × String)) (ftc : List (String × CompileCommand))
    (hl0 : lookupKV c0 ftc = none) :
    headerCommands ((h0, c0) :: rest) ftc = headerCommands rest ftc := by
  simp [headerCommands, List.filterMap_cons, hl0]

/-- Every synthetic entry's `file` is a key of the discovery set. -/
theorem mem_headerCommands_file (processed : List (String × String))
    (ftc : List (String × CompileCommand)) (e : CompileCommand) :
    e ∈ headerCommands processed ftc → e.file ∈ keysOf processed := by
  intro he
  rcases List.mem_filterMap.mp he with ⟨⟨h0, c0⟩, hmem, hsome⟩
  cases hl : lookupKV c0 ftc with
  | none => rw [hl] at hsome; cases hsome
  | some cmd =>
    rw [hl] at hsome
    have hfile : e.file = h0 := by
      have := Option.some_injective _ hsome
      rw [← this]
    rw [hfile]
    exact List.mem_map_of_mem Prod.fst hmem

/-- Headers absent from the discovery set have no synthetic entry. -/
theorem headerCommands_countP_zero (processed : List (String × String))
    (ftc : List (String × CompileCommand)) (h : String)
    (habs : h ∉ keysOf processed) :
    (headerCommands processed ftc).countP (fun e => decide (e.file = h)) = 0 := by
  rw [List.countP_eq_zero]
  intro e he
  have := mem_headerCommands_file processed ftc e he
  simp only [decide_eq_true_eq]
  intro hfile
  exact habs (hfile ▸ this)

/-- C6: for a discovery set with pairwise-distinct header paths, a
header whose context is a known entry yields exactly one synthetic
entry — `directory`/`command`/`arguments` copied verbatim, `file` the
header path, `output` absent — and a header whose context is unknown
yields none (dropped without failure). -/
theorem claimC6_aggregator_copies_context
    (processed : List (String × String))
    (ftc : List (String × CompileCommand)) (h ctx : String)
    (hnd : (keysOf processed).Nodup) (hmem : (h, ctx) ∈ processed) :
    (∀ cmd, lookupKV ctx ftc = some cmd →
      (headerCommands processed ftc).countP (fun e => decide (e.file = h)) = 1 ∧
      ∀ e ∈ headerCommands processed ftc, e.file = h →
        e = syntheticEntry h cmd) ∧
    (lookupKV ctx ftc = none →
      (headerCommands processed ftc).countP (fun e => decide (e.file = h)) = 0) := by
  induction processed with
  | nil => cases hmem
  | cons hd rest ih =>
    obtain ⟨h0, c0⟩ := hd
    have hnd' : (keysOf rest).Nodup := (List.nodup_cons.mp hnd).2
    have h0abs : h0 ∉ keysOf rest := (List.nodup_cons.mp hnd).1
    rcases List.mem_cons.mp hmem with hhd | hrest
    · have hh : h = h0 := congrArg Prod.fst hhd
      have hc : ctx = c0 := congrArg Prod.snd hhd
      subst hh
      subst hc
      constructor
      · intro cmd hcmd
        rw [headerCommands_cons_some h ctx rest ftc cmd hcmd]
        constructor
        · rw [List.countP_cons]
          rw [headerCommands_countP_zero rest ftc h h0abs]
          simp [syntheticEntry]
        · intro e he hfile
          rcases List.mem_cons.mp he with he0 | he0
          · rw [he0]
          · exact absurd (mem_headerCommands_file rest ftc e he0)
              (hfile ▸ h0abs)
      · intro hcmd
        rw [headerCommands_cons_none h ctx rest ftc hcmd]
        exact headerCommands_countP_zero rest ftc h h0abs
    · have hne : h0 ≠ h := by
        intro hq
        exact h0abs (hq ▸ List.mem_map_of_mem Prod.fst hrest)
      have ihr := ih hnd' hrest
      constructor
      · intro cmd hcmd
        obtain ⟨hcount, hshape⟩ := ihr.1 cmd hcmd
        cases hl0 : lookupKV c0 ftc with
        | none =>
          rw [headerCommands_cons_none h0 c0 rest ftc hl0]
          exact ⟨hcount, hshape⟩
        | some cmd0 =>
          rw [headerCommands_cons_some h0 c0 rest ftc cmd0 hl0]
          constructor
          · rw [List.countP_cons, hcount]
            simp [syntheticEntry, hne]
          · intro e he hfile
            rcases List.mem_cons.mp he with he0 | he0
            · rw [he0] at hfile
              exact absurd hfile hne
            · exact hshape e he0 hfile
      · intro hcmd
        have hcount := ihr.2 hcmd
        cases hl0 : lookupKV c0 ftc with
        | none =>
          rw [headerCommands_cons_none h0 c0 rest ftc hl0]
          exact hcount
        | some cmd0 =>
          rw [headerCommands_cons_some h0 c0 rest ftc cmd0 hl0]
          rw [List.countP_cons, hcount]
          simp [syntheticEntry, hne]

/-- A known manifest entry used by the aggregator witness. -/
def cmdKnown : CompileCommand :=
  { directory := "/w", file := "/w/m.cpp",
    command := some "cc -I inc /w/m.cpp", arguments := none,
    output := some "/w/m.o" }

/-- C6 witness: a header whose context is known yields exactly one
synthetic entry; a header whose context is unknown yields none. -/
theorem claimC6_witness :
    (headerCommands [("/w/hdr.h", "/w/m.cpp"), ("/w/orphan.h", "/w/gone.cpp")]
      [("/w/m.cpp", cmdKnown)]).countP
      (fun e => decide (e.file = "/w/hdr.h")) = 1 ∧
    (headerCommands [("/w/hdr.h", "/w/m.cpp"), ("/w/orphan.h", "/w/gone.cpp")]
      [("/w/m.cpp", cmdKnown)]).countP
      (fun e => decide (e.file = "/w/orphan.h")) = 0 := by
  have h1 := claimC6_aggregator_copies_context
    [("/w/hdr.h", "/w/m.cpp"), ("/w/orphan.h", "/w/gone.cpp")]
    [("/w/m.cpp", cmdKnown)] "/w/hdr.h" "/w/m.cpp" (by decide)
    (by simp)
  have h2 := claimC6_aggregator_copies_context
    [("/w/hdr.h", "/w/m.cpp"), ("/w/orphan.h", "/w/gone.cpp")]
    [("/w/m.cpp", cmdKnown)] "/w/orphan.h" "/w/gone.cpp" (by decide)
    (by simp)
  exact ⟨(h1.1 cmdKnown rfl).1, h2.2 rfl⟩

/-! ## C1: `-I` declaration order is lost in the hash sets

The two entries below declare the same two `-I` directories in opposite
orders.  `extract_include_directories_for_command` stores the
directories in an `FxHashSet`, whose iteration order is a function of
the element set alone; consequently the search lists derived from the
two entries are identical, and the claimed behavior — `<x.h>` resolving
to the first-declared directory — cannot hold for both entries. -/

/-- Manifest entry declaring `-Ia -Ib` (in that order). -/
def cmdIab : CompileCommand :=
  { directory := "/d", file := "/d/t.cpp", command := none,
    arguments := some ["-I", "a", "-I", "b"], output := none }

/-- Manifest entry declaring `-Ib -Ia` (in that order). -/
def cmdIba : CompileCommand :=
  { directory := "/d", file := "/d/t.cpp", command := none,
    arguments := some ["-I", "b", "-I", "a"], output := none }

/-- A snapshot where both `a/x.h` and `b/x.h` exist. -/
def fsAB : FSModel :=
  { exists_ := fun p => p = "a/x.h" || p = "b/x.h"
    canonicalize := fun p => if p = "a/x.h" || p = "b/x.h" then some p else none
    read := fun _ => none }

/-- The search list an entry induces: project dirs chained before system
dirs, as built by `find_header_files`. -/
def allDirsOf (enumP enumS : List String → List String)
    (cmd : CompileCommand) : List String :=
  (extract_include_directories_for_command enumP enumS cmd).1 ++
  (extract_include_directories_for_command enumP enumS cmd).2

/-- C1: for every hash-set enumeration (any function of the element set),
the include `x.h` cannot resolve to `a/x.h` under `-Ia -Ib` and to
`b/x.h` under `-Ib -Ia`: both entries induce the same search list, so
first-declared-wins is unachievable.  (The project-before-system part of
the claim does hold; the declaration-order part is what fails.) -/
theorem claimC1_declaration_order_unachievable
    (enumP enumS : List String → List String) (hP : SetRespecting enumP) :
    ¬ ((resolve_header_path fsAB "x.h" (allDirsOf enumP enumS cmdIab)
          "/d/t.cpp" emptyResolveState).1 = some "a/x.h" ∧
       (resolve_header_path fsAB "x.h" (allDirsOf enumP enumS cmdIba)
          "/d/t.cpp" emptyResolveState).1 = some "b/x.h") := by
  rintro ⟨h1, h2⟩
  have hsets : ∀ x : String, x ∈ ["a", "b"] ↔ x ∈ ["b", "a"] := by
    intro x
    simp [or_comm]
  have hEq : enumP ["a", "b"] = enumP ["b", "a"] := hP _ _ hsets
  have hd1 : allDirsOf enumP enumS cmdIab = enumP ["a", "b"] ++ enumS [] := rfl
  have hd2 : allDirsOf enumP enumS cmdIba = enumP ["b", "a"] ++ enumS [] := rfl
  rw [hd1, hEq] at h1
  rw [hd2] at h2
  rw [h1] at h2
  exact absurd (Option.some_injective _ h2) (by decide)

/-- An enumeration that depends only on membership of `a` and `b` —
one possible hash-set iteration behavior. -/
def enumByMembership : List String → List String :=
  fun l => (if "a" ∈ l then ["a"] else []) ++ (if "b" ∈ l then ["b"] else [])

theorem enumByMembership_setRespecting : SetRespecting enumByMembership := by
  intro l l' hiff
  simp only [enumByMembership, hiff "a", hiff "b"]

/-- C1 witness: the impossibility instantiated at a concrete set-function
enumeration. -/
theorem claimC1_witness :
    ¬ ((resolve_header_path fsAB "x.h"
          (allDirsOf enumByMembership enumByMembership cmdIab)
          "/d/t.cpp" emptyResolveState).1 = some "a/x.h" ∧
       (resolve_header_path fsAB "x.h"
          (allDirsOf enumByMembership enumByMembership cmdIba)
          "/d/t.cpp" emptyResolveState).1 = some "b/x.h") :=
  claimC1_declaration_order_unachievable enumByMembership enumByMembership
    enumByMembership_setRespecting

/-! ## C5: the include extractor

Two specification-side definitions are compared against
`extract_includes`: `perLineIncludes` formalizes the claim as stated
(whole lines of the form `ws* # ws* include ws+ <tok>`/`"tok"`), and
`matchAtPos`/`specScanFrom` formalize the amended claim (the captures of
the leftmost non-overlapping occurrences of the pattern anywhere in the
text). -/

theorem dropWs_suffix (cs : List Char) : dropWs cs <:+ cs := by
  induction cs with
  | nil => exact List.suffix_refl []
  | cons c rest ih =>
    rw [dropWs]
    by_cases h : isWsChar c
    · rw [if_pos h]
      exact ih.trans (List.suffix_cons c rest)
    · rw [if_neg h]

theorem expectInclude_eq (cs r : List Char) :
    expectInclude cs = some r → r <:+ cs ∧ r.length + 7 = cs.length := by
  unfold expectInclude
  split
  · intro h
    injection h with h'
    subst h'
    exact ⟨⟨['i', 'n', 'c', 'l', 'u', 'd', 'e'], rfl⟩, by simp⟩
  · intro h
    cases h

theorem tryTail_some (cs : List Char) (tok : String) (r : List Char) :
    tryTail cs = some (tok, r) → r <:+ cs ∧ r.length < cs.length := by
  unfold tryTail
  cases hexp : expectInclude (dropWs cs) with
  | none => intro h; cases h
  | some cs1 =>
    obtain ⟨hsfx1, hlen1⟩ := expectInclude_eq (dropWs cs) cs1 hexp
    have hdws : (dropWs cs).length ≤ cs.length :=
      (dropWs_suffix cs).length_le
    have hcs1 : cs1 <:+ cs := hsfx1.trans (dropWs_suffix cs)
    cases cs1 with
    | nil => intro h; cases h
    | cons c cs2 =>
      dsimp only
      by_cases hws : isWsChar c
      · rw [if_pos hws]
        cases hdw : dropWs cs2 with
        | nil => intro h; cases h
        | cons d cs3 =>
          dsimp only
          by_cases hdelim : (d = '<' || d = '"') = true
          · rw [if_pos hdelim]
            have hcs3 : cs3 <:+ cs2 :=
              (List.suffix_cons d cs3).trans (hdw ▸ dropWs_suffix cs2)
            have hlen3 : cs3.length + 1 ≤ cs2.length := by
              have := (hdw ▸ dropWs_suffix cs2).length_le
              simpa using this
            cases htk : cs3.takeWhile isTokChar with
            | nil => intro h; cases h
            | cons t ts =>
              dsimp only
              cases hdr : cs3.dropWhile isTokChar with
              | nil => intro h; cases h
              | cons e rest =>
                dsimp only
                intro h
                injection h with h'
                have hr : r = rest := (congrArg Prod.snd h').symm
                subst hr
                have hrest : r <:+ cs3 :=
                  (List.suffix_cons e r).trans
                    (hdr ▸ List.dropWhile_suffix isTokChar)
                have hlenr : r.length + 1 ≤ cs3.length := by
                  have := (hdr ▸ List.dropWhile_suffix
                    (l := cs3) isTokChar).length_le
                  simpa using this
                have hsfx : r <:+ cs :=
                  (hrest.trans hcs3).trans
                    ((List.suffix_cons c cs2).trans hcs1)
                refine ⟨hsfx, ?_⟩
                have hc1len : cs2.length + 1 + 7 = (dropWs cs).length := by
                  simpa using hlen1
                omega
          · rw [if_neg hdelim]
            intro h
            cases h
      · rw [if_neg hws]
        intro h
        cases h

/-- A match of the include pattern starting at position `i` (at a `#`):
the captured token and the position just past the closing delimiter. -/
def matchAtPos (s : List Char) (i : Nat) : Option (String × Nat) :=
  match s.drop i with
  | [] => none
  | c :: rest =>
    if c = '#' then
      (tryTail rest).map (fun tr => (tr.1, s.length - tr.2.length))
    else none

/-- The amended specification: walk the positions left to right; at each
position try the pattern; on a match emit the capture and resume just
past its closing delimiter (leftmost, non-overlapping). -/
def specScanFrom (s : List Char) : Nat → Nat → List String
  | 0, _ => []
  | fuel + 1, i =>
    if i < s.length then
      match matchAtPos s i with
      | some tr => tr.1 :: specScanFrom s fuel tr.2
      | none => specScanFrom s fuel (i + 1)
    else []

/-- The amended claim's extraction function. -/
def extractIncludesSpec (s : String) : List String :=
  specScanFrom s.data (s.data.length + 1) 0

theorem scanIncludes_nil (fuel : Nat) : scanIncludes fuel [] = [] := by
  cases fuel <;> rfl

theorem specScan_eq_scan (s : List Char) :
    ∀ fuel i, s.length - i < fuel →
      specScanFrom s fuel i = scanIncludes fuel (s.drop i) := by
  intro fuel
  induction fuel with
  | zero => intro i h; omega
  | succ fuel ih =>
    intro i hfi
    by_cases hi : i < s.length
    · have hdrop : s.drop i = s[i] :: s.drop (i + 1) :=
        List.drop_eq_getElem_cons hi
      rw [specScanFrom, if_pos hi, hdrop, scanIncludes]
      by_cases hhash : s[i] = '#'
      · have hm : matchAtPos s i = (tryTail (s.drop (i + 1))).map
            (fun tr => (tr.1, s.length - tr.2.length)) := by
          simp [matchAtPos, hdrop, hhash]
        rw [if_pos hhash, hm]
        cases htt : tryTail (s.drop (i + 1)) with
        | none =>
          simp only [Option.map_none]
          exact ih (i + 1) (by omega)
        | some tr =>
          obtain ⟨tok, r⟩ := tr
          obtain ⟨hsfx, hlt⟩ := tryTail_some _ _ _ htt
          have hrs : r <:+ s := hsfx.trans (List.drop_suffix (i + 1) s)
          have hj : s.drop (s.length - r.length) = r :=
            (List.suffix_iff_eq_drop.mp hrs).symm
          dsimp only [Option.map]
          have hdl : (s.drop (i + 1)).length = s.length - (i + 1) :=
            List.length_drop (i + 1) s
          have hfuel : s.length - (s.length - r.length) < fuel := by
            have hrles : r.length ≤ s.length := hrs.length_le
            omega
          rw [ih (s.length - r.length) hfuel, hj]
      · have hm : matchAtPos s i = none := by
          unfold matchAtPos
          rw [hdrop]
          dsimp only
          exact if_neg hhash
        rw [if_neg hhash, hm]
        exact ih (i + 1) (by omega)
    · rw [specScanFrom, if_neg hi]
      rw [List.drop_eq_nil_of_le (by omega), scanIncludes_nil]

/-- Whether an entire line consists of optional leading whitespace, `#`,
optional whitespace, `include`, whitespace, and a token delimited by
`<...>` or `"..."` — the claim's per-line pattern; returns the token. -/
def lineInclude (l : List Char) : Option String :=
  match dropWs l with
  | '#' :: l2 =>
    match expectInclude (dropWs l2) with
    | none => none
    | some l3 =>
      match l3 with
      | [] => none
      | c :: l4 =>
        if isWsChar c then
          match dropWs l4 with
          | [] => none
          | d :: l5 =>
            match l5.takeWhile isTokChar with
            | [] => none
            | tok =>
              match l5.dropWhile isTokChar with
              | [] => none
              | e :: rest =>
                if ((d = '<' && e = '>') || (d = '"' && e = '"')) &&
                    rest.isEmpty
                then some (String.mk tok)
                else none
        else none
  | _ => none

/-- The claim as stated: the tokens of the lines each consisting exactly
of the include pattern. -/
def perLineIncludes (s : String) : List String :=
  (splitOnChar '\n' s.data).filterMap lineInclude

/-- C5 counterexample: a directive preceded by other code on its line is
extracted by the code, but the line does not consist of the claimed
pattern, so the claim's per-line reading yields no token at all. -/
theorem claimC5_counterexample :
    extract_includes "int x = 0; #include <a.h>" = ["a.h"] ∧
    perLineIncludes "int x = 0; #include <a.h>" = [] := by
  constructor <;> rfl

/-- C5 (amended): for every input text the extractor returns, in source
order, exactly the captures of the leftmost non-overlapping occurrences
of `#`, optional whitespace, `include`, whitespace, and a
`<`/`"`-delimited token anywhere in the text — not only on lines
consisting of that pattern alone; it is a pure function of the text. -/
theorem claimC5_extractor_is_position_scan (s : String) :
    extract_includes s = extractIncludesSpec s := by
  unfold extract_includes extractIncludesSpec
  rw [specScan_eq_scan s.data (s.data.length + 1) 0 (by omega),
    List.drop_zero]

/-! ## Work-queue and discovery-set invariants of the traversal -/

theorem processInclude_work_mem (cfg : RunCfg) (c : String)
    (dirs : List String) (f : String) (st : RunState) (inc : String)
    (item : String × String) :
    item ∈ (processInclude cfg c dirs f st inc).work →
    item ∈ st.work ∨ is_system_header item.1 cfg.allSystemDirs = false := by
  simp only [processInclude]
  cases hr : (resolve_header_path cfg.fs inc dirs f st.rs).1 with
  | none => intro h; exact Or.inl h
  | some header =>
    dsimp only
    cases ho : (insertKV header c st.processed).2 with
    | some old => intro h; exact Or.inl h
    | none =>
      dsimp only
      by_cases hsys : is_system_header header cfg.allSystemDirs = true
      · rw [if_pos hsys]
        intro h
        exact Or.inl h
      · rw [if_neg hsys]
        intro h
        rcases List.mem_append.mp h with h1 | h1
        · exact Or.inl h1
        · rw [List.mem_singleton] at h1
          subst h1
          exact Or.inr (Bool.not_eq_true _ ▸ hsys)

theorem foldl_processInclude_work_mem (cfg : RunCfg) (c : String)
    (dirs : List String) (f : String) :
    ∀ (incs : List String) (st : RunState) (item : String × String),
      item ∈ (incs.foldl (processInclude cfg c dirs f) st).work →
      item ∈ st.work ∨ is_system_header item.1 cfg.allSystemDirs = false := by
  intro incs
  induction incs with
  | nil => intro st item h; exact Or.inl h
  | cons inc rest ih =>
    intro st item h
    rcases ih (processInclude cfg c dirs f st inc) item h with h1 | h1
    · exact processInclude_work_mem cfg c dirs f st inc item h1
    · exact Or.inr h1

theorem processItem_work_mem (cfg : RunCfg) (st : RunState)
    (item0 item : String × String) :
    item ∈ (processItem cfg st item0).work →
    item ∈ st.work ∨ is_system_header item.1 cfg.allSystemDirs = false := by
  unfold processItem
  split
  · intro h; exact Or.inl h
  · split
    · intro h; exact Or.inl h
    · split
      · intro h; exact Or.inl h
      · exact foldl_processInclude_work_mem cfg item0.2 _ item0.1 _ st item

theorem stepRun_work_mem (cfg : RunCfg) (st : RunState) (n : Nat)
    (item : String × String) :
    item ∈ (stepRun cfg st n).work →
    item ∈ st.work ∨ is_system_header item.1 cfg.allSystemDirs = false := by
  unfold stepRun
  cases hw : st.work with
  | nil => intro h; exact Or.inl (hw ▸ h)
  | cons w ws =>
    intro h
    rcases processItem_work_mem cfg _ _ item h with h1 | h1
    · simp only at h1
      exact Or.inl ((List.eraseIdx_sublist (w :: ws) _).mem h1)
    · exact Or.inr h1

/-- C4 (amended): in every scheduled run, every work item ever present
is either one of the starting items or a header that
`is_system_header` classifies as non-system (its path does not start
with any collected system include directory); headers the prefix test
classifies as system are never pushed, so their includes are never
scanned.  (The §4.3 string heuristic plays no role here — see the
counterexample.) -/
theorem claimC4_system_headers_never_enqueued (cfg : RunCfg)
    (sched : List Nat) (st : RunState) (item : String × String) :
    item ∈ (runSched cfg sched st).work →
    item ∈ st.work ∨ is_system_header item.1 cfg.allSystemDirs = false := by
  induction sched generalizing st with
  | nil => intro h; exact Or.inl h
  | cons n rest ih =>
    intro h
    rcases ih (stepRun cfg st n) h with h1 | h1
    · exact stepRun_work_mem cfg st n item h1
    · exact Or.inr h1

/-- A snapshot whose source tree lives under `/usr/src` (every path in it
satisfies the §4.3 string heuristic) with no `-I`/`-isystem` flags at
all: `a.c` includes `x.h`, which includes the otherwise-unreachable
`y.h`. -/
def fsUsrSrc : FSModel :=
  { exists_ := fun p => p = "/usr/src/a.c" || p = "/usr/src/x.h" ||
      p = "/usr/src/y.h"
    canonicalize := fun p =>
      if p = "/usr/src/a.c" || p = "/usr/src/x.h" || p = "/usr/src/y.h"
      then some p else none
    read := fun p =>
      if p = "/usr/src/a.c" then some "#include \"x.h\""
      else if p = "/usr/src/x.h" then some "#include \"y.h\""
      else none }

/-- The single entry of the `/usr/src` manifest (no include flags). -/
def cmdUsrSrc : CompileCommand :=
  { directory := "/usr/src", file := "/usr/src/a.c", command := none,
    arguments := some [], output := none }

def cfgUsr : RunCfg := mkRunCfg id id fsUsrSrc [cmdUsrSrc]

def initUsr : RunState := initRunState fsUsrSrc [cmdUsrSrc]

/-- C4 counterexample: `/usr/src/x.h` is classified as system by the
§4.3 string heuristic, yet the traversal pushes it onto the work queue
and scans its includes — the otherwise-unreachable `/usr/src/y.h` is
discovered — because pruning uses `is_system_header` (prefix match
against the collected `-I`/`-isystem` system directories, here empty),
not the string heuristic. -/
theorem claimC4_counterexample :
    is_system_path "/usr/src/x.h" = true ∧
    (runSched cfgUsr [0] initUsr).work =
      [("/usr/src/x.h", "/usr/src/a.c")] ∧
    "/usr/src/y.h" ∈ keysOf (runSched cfgUsr [0, 0, 0] initUsr).processed ∧
    (runSched cfgUsr [0, 0, 0] initUsr).work = [] := by
  refine ⟨rfl, rfl, ?_, rfl⟩
  decide

/-- C4 witness: the invariant applied to the `/usr/src` run — the one
item the first step pushes is non-system under `is_system_header`. -/
theorem claimC4_witness :
    ("/usr/src/x.h", "/usr/src/a.c") ∈ initUsr.work ∨
    is_system_header "/usr/src/x.h" cfgUsr.allSystemDirs = false := by
  have h := claimC4_system_headers_never_enqueued cfgUsr [0] initUsr
    ("/usr/src/x.h", "/usr/src/a.c") (by decide)
  exact h

/-! ## C8: at-most-once discovery -/

theorem processInclude_nodup (cfg : RunCfg) (c : String)
    (dirs : List String) (f : String) (st : RunState) (inc : String)
    (h : (keysOf st.processed).Nodup) :
    (keysOf (processInclude cfg c dirs f st inc).processed).Nodup := by
  simp only [processInclude]
  split
  · exact h
  · split
    · exact nodup_keysOf_insertKV _ _ _ h
    · split
      · exact nodup_keysOf_insertKV _ _ _ h
      · exact nodup_keysOf_insertKV _ _ _ h

theorem foldl_processInclude_nodup (cfg : RunCfg) (c : String)
    (dirs : List String) (f : String) :
    ∀ (incs : List String) (st : RunState),
      (keysOf st.processed).Nodup →
      (keysOf ((incs.foldl (processInclude cfg c dirs f) st)).processed).Nodup := by
  intro incs
  induction incs with
  | nil => intro st h; exact h
  | cons inc rest ih =>
    intro st h
    exact ih _ (processInclude_nodup cfg c dirs f st inc h)

theorem processItem_nodup (cfg : RunCfg) (st : RunState)
    (item0 : String × String) (h : (keysOf st.processed).Nodup) :
    (keysOf (processItem cfg st item0).processed).Nodup := by
  unfold processItem
  split
  · exact h
  · split
    · exact h
    · split
      · exact h
      · exact foldl_processInclude_nodup cfg item0.2 _ item0.1 _ st h

theorem stepRun_nodup (cfg : RunCfg) (st : RunState) (n : Nat)
    (h : (keysOf st.processed).Nodup) :
    (keysOf (stepRun cfg st n).processed).Nodup := by
  unfold stepRun
  cases hw : st.work with
  | nil => exact h
  | cons w ws => exact processItem_nodup cfg _ _ h

theorem runSched_nodup (cfg : RunCfg) (sched : List Nat) (st : RunState)
    (h : (keysOf st.processed).Nodup) :
    (keysOf (runSched cfg sched st).processed).Nodup := by
  induction sched generalizing st with
  | nil => exact h
  | cons n rest ih => exact ih _ (stepRun_nodup cfg st n h)

theorem headerCommands_files_sublist (p : List (String × String))
    (ftc : List (String × CompileCommand)) :
    ((headerCommands p ftc).map (fun e => e.file)).Sublist (keysOf p) := by
  induction p with
  | nil => simp [headerCommands, keysOf]
  | cons hd rest ih =>
    obtain ⟨h0, c0⟩ := hd
    cases hl : lookupKV c0 ftc with
    | none =>
      rw [headerCommands_cons_none _ _ _ _ hl]
      exact ih.trans (List.sublist_cons_self h0 (keysOf rest))
    | some cmd =>
      rw [headerCommands_cons_some _ _ _ _ _ hl]
      simp only [List.map_cons, keysOf, syntheticEntry]
      exact ih.cons₂ h0

/-- C8: starting from a discovery set with pairwise-distinct header
paths (in particular the empty one), every scheduled run ends with
pairwise-distinct header paths, and therefore no header path appears
more than once among the synthetic output entries: the set is a map
keyed by header path, claimed by a single insert returning the previous
binding. -/
theorem claimC8_no_duplicate_headers (cfg : RunCfg) (sched : List Nat)
    (st : RunState) (ftc : List (String × CompileCommand))
    (hnd : (keysOf st.processed).Nodup) :
    ((headerCommands (runSched cfg sched st).processed ftc).map
      (fun e => e.file)).Nodup :=
  (headerCommands_files_sublist _ ftc).nodup
    (runSched_nodup cfg sched st hnd)

/-- C8 witness: the `/usr/src` run's synthetic entries carry pairwise
distinct header paths. -/
theorem claimC8_witness :
    ((headerCommands (runSched cfgUsr [0, 0, 0] initUsr).processed
      (buildFileToCommand [cmdUsrSrc])).map (fun e => e.file)).Nodup :=
  claimC8_no_duplicate_headers cfgUsr [0, 0, 0] initUsr
    (buildFileToCommand [cmdUsrSrc]) (by decide)

/-! ## C9: schedule independence of discovery membership

The resolver-state invariant below states that the interner is
well-formed and both caches only hold answers the cache-free resolution
would give for one fixed search-directory list `D`; under it,
`resolve_header_path` always returns `pureResolve` and preserves the
invariant, which turns every scheduled step into a pure function of the
scanned file — the key to the confluence argument. -/

theorem insertKV_append_of_lookup_none {α β : Type} [DecidableEq α]
    (k : α) (v : β) (l : List (α × β)) (h : lookupKV k l = none) :
    (insertKV k v l).1 = l ++ [(k, v)] := by
  induction l with
  | nil => rfl
  | cons hd tl ih =>
    obtain ⟨k', v'⟩ := hd
    by_cases hk : k = k'
    · rw [lookupKV, if_pos hk] at h
      cases h
    · rw [lookupKV, if_neg hk] at h
      rw [insertKV, if_neg hk]
      simp [ih h]

theorem eq_fst_of_nodup_snd {α β : Type} {l : List (α × β)} {a a' : α}
    {b : β} (hnd : (l.map Prod.snd).Nodup) :
    (a, b) ∈ l → (a', b) ∈ l → a = a' := by
  induction l with
  | nil => intro h; cases h
  | cons hd tl ih =>
    intro h1 h2
    obtain ⟨k, w⟩ := hd
    have hnd' : (tl.map Prod.snd).Nodup := (List.nodup_cons.mp hnd).2
    have hw : w ∉ tl.map Prod.snd := (List.nodup_cons.mp hnd).1
    rcases List.mem_cons.mp h1 with e1 | m1 <;>
      rcases List.mem_cons.mp h2 with e2 | m2
    · injection e1 with ea eb
      injection e2 with ea' eb'
      rw [ea, ea']
    · injection e1 with ea eb
      exact absurd (eb ▸ List.mem_map_of_mem Prod.snd m2) hw
    · injection e2 with ea' eb'
      exact absurd (eb' ▸ List.mem_map_of_mem Prod.snd m1) hw
    · exact ih hnd' m1 m2

/-- The resolver-state invariant relative to a snapshot and one fixed
search-directory list. -/
structure InvRS (fs : FSModel) (D : List String) (rs : ResolveState) : Prop where
  idBound : ∀ d i, (d, i) ∈ rs.dirToId → i < rs.nextDirId
  keysNodup : (keysOf rs.dirToId).Nodup
  idsNodup : (rs.dirToId.map Prod.snd).Nodup
  rcOK : ∀ inc i v, ((inc, i), v) ∈ rs.resolveCache →
    ∃ d, (d, i) ∈ rs.dirToId ∧ v = pureResolve fs D inc d
  ecOK : ECConsistent fs rs.existsCache

theorem InvRS_empty (fs : FSModel) (D : List String) :
    InvRS fs D emptyResolveState := by
  refine ⟨?_, ?_, ?_, ?_, ?_⟩
  · intro d i h; cases h
  · exact List.nodup_nil
  · exact List.nodup_nil
  · intro inc i v h; cases h
  · exact ecConsistent_nil fs

theorem get_dir_id_mem (p : String) (rs : ResolveState) :
    (p, (get_dir_id p rs).1) ∈ (get_dir_id p rs).2.dirToId := by
  unfold get_dir_id
  cases hl : lookupKV p rs.dirToId with
  | some id => exact mem_of_lookupKV_eq_some hl
  | none =>
    dsimp only
    exact mem_of_lookupKV_eq_some (lookupKV_insertKV_self _ _ _)

theorem get_dir_id_super (p d : String) (i : Nat) (rs : ResolveState)
    (h : (d, i) ∈ rs.dirToId) : (d, i) ∈ (get_dir_id p rs).2.dirToId := by
  unfold get_dir_id
  cases hl : lookupKV p rs.dirToId with
  | some id => exact h
  | none =>
    dsimp only
    rw [insertKV_append_of_lookup_none p rs.nextDirId rs.dirToId hl]
    exact List.mem_append_left _ h

theorem get_dir_id_invRS (fs : FSModel) (D : List String) (p : String)
    (rs : ResolveState) (hinv : InvRS fs D rs) :
    InvRS fs D (get_dir_id p rs).2 := by
  unfold get_dir_id
  cases hl : lookupKV p rs.dirToId with
  | some id => exact hinv
  | none =>
    dsimp only
    rw [insertKV_append_of_lookup_none p rs.nextDirId rs.dirToId hl]
    refine ⟨?_, ?_, ?_, ?_, hinv.ecOK⟩
    · intro d i h
      dsimp only
      dsimp only at h
      rcases List.mem_append.mp h with h1 | h1
      · exact Nat.lt_succ_of_lt (hinv.idBound d i h1)
      · rw [List.mem_singleton] at h1
        injection h1 with h1a h1b
        omega
    · have hne : p ∉ keysOf rs.dirToId := (lookupKV_eq_none_iff p _).mp hl
      have : keysOf (rs.dirToId ++ [(p, rs.nextDirId)]) =
          keysOf rs.dirToId ++ [p] := by
        simp [keysOf]
      rw [this]
      refine List.Nodup.append hinv.keysNodup (List.nodup_singleton p) ?_
      intro a ha hb
      rw [List.mem_singleton] at hb
      exact hne (hb ▸ ha)
    · have hfresh : rs.nextDirId ∉ rs.dirToId.map Prod.snd := by
        intro hmem
        rcases List.mem_map.mp hmem with ⟨⟨d, i⟩, hdi, hi⟩
        have := hinv.idBound d i hdi
        simp only at hi
        omega
      have : (rs.dirToId ++ [(p, rs.nextDirId)]).map Prod.snd =
          rs.dirToId.map Prod.snd ++ [rs.nextDirId] := by
        simp
      rw [this]
      refine List.Nodup.append hinv.idsNodup
        (List.nodup_singleton rs.nextDirId) ?_
      intro a ha hb
      rw [List.mem_singleton] at hb
      exact hfresh (hb ▸ ha)
    · intro inc i v h
      rcases hinv.rcOK inc i v h with ⟨d, hd, hv⟩
      exact ⟨d, List.mem_append_left _ hd, hv⟩

/-- Under the invariant, resolution is the pure function `pureResolve`
of the token and the including file's directory, and the invariant is
preserved. -/
theorem resolve_invariant (fs : FSModel) (D : List String) (inc f : String)
    (rs : ResolveState) (hinv : InvRS fs D rs) :
    (resolve_header_path fs inc D f rs).1 =
      pureResolve fs D inc (parentDir f) ∧
    InvRS fs D (resolve_header_path fs inc D f rs).2 := by
  have hinv1 : InvRS fs D (get_dir_id (parentDir f) rs).2 :=
    get_dir_id_invRS fs D _ rs hinv
  have hmemid : (parentDir f, (get_dir_id (parentDir f) rs).1) ∈
      (get_dir_id (parentDir f) rs).2.dirToId := get_dir_id_mem _ _
  simp only [resolve_header_path]
  cases hc : lookupKV (inc, (get_dir_id (parentDir f) rs).1)
      (get_dir_id (parentDir f) rs).2.resolveCache with
  | some cached =>
    rcases hinv1.rcOK inc _ cached (mem_of_lookupKV_eq_some hc) with
      ⟨d, hd, hv⟩
    have hdeq : d = parentDir f :=
      eq_fst_of_nodup_snd hinv1.idsNodup hd hmemid
    exact ⟨by rw [hv, hdeq], hinv1⟩
  | none =>
    have hec1 : ECConsistent fs (get_dir_id (parentDir f) rs).2.existsCache :=
      hinv1.ecOK
    have hfst : (checkOne fs (pathJoin (parentDir f) inc)
        (get_dir_id (parentDir f) rs).2.existsCache).1 =
        fs.exists_ (pathJoin (parentDir f) inc) := checkOne_fst fs _ _ hec1
    have hec2 : ECConsistent fs (checkOne fs (pathJoin (parentDir f) inc)
        (get_dir_id (parentDir f) rs).2.existsCache).2 :=
      checkOne_consistent fs _ _ hec1
    have hbatch : (batch_check_exists fs
        (D.map (fun dir => pathJoin dir inc))
        (checkOne fs (pathJoin (parentDir f) inc)
          (get_dir_id (parentDir f) rs).2.existsCache).2).1 =
        (D.map (fun dir => pathJoin dir inc)).map fs.exists_ :=
      batch_fst fs _ _ hec2
    have hec3 : ECConsistent fs (batch_check_exists fs
        (D.map (fun dir => pathJoin dir inc))
        (checkOne fs (pathJoin (parentDir f) inc)
          (get_dir_id (parentDir f) rs).2.existsCache).2).2 :=
      batch_consistent fs _ _ hec2
    rw [hfst, hbatch]
    cases hrel : fs.exists_ (pathJoin (parentDir f) inc) with
    | true =>
      simp only [if_true]
      constructor
      · simp [pureResolve, List.find?, hrel]
      · refine ⟨hinv1.idBound, hinv1.keysNodup, hinv1.idsNodup, ?_, hec3⟩
        intro inc' i' v' hmem'
        rcases mem_insertKV _ _ _ hmem' with hold | hnew
        · exact hinv1.rcOK inc' i' v' hold
        · injection hnew with hk hv
          injection hk with hk1 hk2
          subst hk1
          subst hk2
          subst hv
          refine ⟨parentDir f, hmemid, ?_⟩
          simp [pureResolve, List.find?, hrel]
    | false =>
      simp only [Bool.false_eq_true, if_false, find_zip_map]
      cases hfind : (D.map (fun dir => pathJoin dir inc)).find? fs.exists_ with
      | some c =>
        dsimp only [Option.map]
        constructor
        · simp [pureResolve, List.find?, hrel, hfind]
        · exact ⟨hinv1.idBound, hinv1.keysNodup, hinv1.idsNodup,
            hinv1.rcOK, hec3⟩
      | none =>
        dsimp only [Option.map]
        constructor
        · simp [pureResolve, List.find?, hrel, hfind]
        · refine ⟨hinv1.idBound, hinv1.keysNodup, hinv1.idsNodup, ?_, hec3⟩
          intro inc' i' v' hmem'
          rcases mem_insertKV _ _ _ hmem' with hold | hnew
          · exact hinv1.rcOK inc' i' v' hold
          · injection hnew with hk hv
            injection hk with hk1 hk2
            subst hk1
            subst hk2
            subst hv
            refine ⟨parentDir f, hmemid, ?_⟩
            simp [pureResolve, List.find?, hrel, hfind]

/-- The abstract effect of one resolved include on the
(discovery set, work queue) pair: claim the header for context `c`
(replacing any stored context) and push it when it is newly claimed and
not a system header. -/
def absorb (allSys : List String) (c : String)
    (pw : List (String × String) × List (String × String))
    (res : Option String) :
    List (String × String) × List (String × String) :=
  match res with
  | none => pw
  | some h =>
    ((insertKV h c pw.1).1,
     if lookupKV h pw.1 = none ∧ is_system_header h allSys = false
     then pw.2 ++ [(h, c)] else pw.2)

/-- Absorb a list of resolved headers in order. -/
def claimAll (allSys : List String) (c : String)
    (pw : List (String × String) × List (String × String))
    (hs : List String) :
    List (String × String) × List (String × String) :=
  hs.foldl (fun pw h => absorb allSys c pw (some h)) pw

/-- The headers a file contributes when scanned under the uniform
search-directory list `D`. -/
def childrenOf (cfg : RunCfg) (D : List String) (f : String) : List String :=
  if !isScannable f then []
  else
    match cfg.fs.read f with
    | none => []
    | some content =>
      (extract_includes content).filterMap
        (fun inc => pureResolve cfg.fs D inc (parentDir f))

theorem processInclude_char (cfg : RunCfg) (D : List String) (c f : String)
    (st : RunState) (inc : String) (hinv : InvRS cfg.fs D st.rs) :
    ((processInclude cfg c D f st inc).processed,
     (processInclude cfg c D f st inc).work) =
      absorb cfg.allSystemDirs c (st.processed, st.work)
        (pureResolve cfg.fs D inc (parentDir f)) ∧
    InvRS cfg.fs D (processInclude cfg c D f st inc).rs := by
  obtain ⟨hres, hinv'⟩ := resolve_invariant cfg.fs D inc f st.rs hinv
  simp only [processInclude]
  rw [hres]
  cases hp : pureResolve cfg.fs D inc (parentDir f) with
  | none => exact ⟨rfl, hinv'⟩
  | some h =>
    dsimp only
    cases ho : (insertKV h c st.processed).2 with
    | some old =>
      have hl : lookupKV h st.processed = some old := by
        rw [← insertKV_old]
        exact ho
      constructor
      · simp [absorb, hl]
      · exact hinv'
    | none =>
      have hl : lookupKV h st.processed = none := by
        rw [← insertKV_old]
        exact ho
      dsimp only
      by_cases hsys : is_system_header h cfg.allSystemDirs = true
      · rw [if_pos hsys]
        constructor
        · simp [absorb, hl, hsys]
        · exact hinv'
      · rw [if_neg hsys]
        have hsys' : is_system_header h cfg.allSystemDirs = false :=
          Bool.not_eq_true _ ▸ hsys
        constructor
        · simp [absorb, hl, hsys']
        · exact hinv'

theorem foldl_processInclude_char (cfg : RunCfg) (D : List String)
    (c f : String) :
    ∀ (incs : List String) (st : RunState), InvRS cfg.fs D st.rs →
      ((incs.foldl (processInclude cfg c D f) st).processed,
       (incs.foldl (processInclude cfg c D f) st).work) =
        claimAll cfg.allSystemDirs c (st.processed, st.work)
          (incs.filterMap
            (fun inc => pureResolve cfg.fs D inc (parentDir f))) ∧
      InvRS cfg.fs D (incs.foldl (processInclude cfg c D f) st).rs := by
  intro incs
  induction incs with
  | nil => intro st h; exact ⟨rfl, h⟩
  | cons inc rest ih =>
    intro st h
    obtain ⟨hpair, hinv'⟩ := processInclude_char cfg D c f st inc h
    obtain ⟨hpair2, hinv2⟩ := ih (processInclude cfg c D f st inc) hinv'
    refine ⟨?_, hinv2⟩
    rw [List.foldl_cons, hpair2, hpair]
    cases hp : pureResolve cfg.fs D inc (parentDir f) with
    | none => simp [List.filterMap_cons, hp, absorb]
    | some hh => simp [List.filterMap_cons, hp, claimAll, absorb]

theorem processItem_char (cfg : RunCfg) (D : List String) (st : RunState)
    (item : String × String) (hinv : InvRS cfg.fs D st.rs)
    (hctx : lookupKV item.2 cfg.fileToIncludes = some D) :
    ((processItem cfg st item).processed, (processItem cfg st item).work) =
      claimAll cfg.allSystemDirs item.2 (st.processed, st.work)
        (childrenOf cfg D item.1) ∧
    InvRS cfg.fs D (processItem cfg st item).rs := by
  unfold processItem childrenOf
  by_cases hscan : (!isScannable item.1) = true
  · rw [if_pos hscan, if_pos hscan]
    exact ⟨rfl, hinv⟩
  · rw [if_neg hscan, if_neg hscan, hctx]
    cases hread : cfg.fs.read item.1 with
    | none => exact ⟨rfl, hinv⟩
    | some content =>
      exact foldl_processInclude_char cfg D item.2 item.1
        (extract_includes content) st hinv

theorem claimAll_keys_mono (allSys : List String) (c : String) :
    ∀ (hs : List String) (pw : List (String × String) × List (String × String))
      (x : String), x ∈ keysOf pw.1 → x ∈ keysOf (claimAll allSys c pw hs).1 := by
  intro hs
  induction hs with
  | nil => intro pw x h; exact h
  | cons h0 hs ih =>
    intro pw x h
    refine ih (absorb allSys c pw (some h0)) x ?_
    simp only [absorb]
    exact (mem_keysOf_insertKV h0 x c pw.1).mpr (Or.inl h)

theorem claimAll_mem_claimed (allSys : List String) (c : String) :
    ∀ (hs : List String) (pw : List (String × String) × List (String × String))
      (h : String), h ∈ hs → h ∈ keysOf (claimAll allSys c pw hs).1 := by
  intro hs
  induction hs with
  | nil => intro pw h hmem; cases hmem
  | cons h0 hs ih =>
    intro pw h hmem
    rcases List.mem_cons.mp hmem with rfl | hmem'
    · refine claimAll_keys_mono allSys c hs (absorb allSys c pw (some h)) h ?_
      simp only [absorb]
      exact (mem_keysOf_insertKV h h c pw.1).mpr (Or.inr rfl)
    · exact ih (absorb allSys c pw (some h0)) h hmem'

theorem claimAll_work_mono (allSys : List String) (c : String) :
    ∀ (hs : List String) (pw : List (String × String) × List (String × String))
      (fc : String × String), fc ∈ pw.2 → fc ∈ (claimAll allSys c pw hs).2 := by
  intro hs
  induction hs with
  | nil => intro pw fc h; exact h
  | cons h0 hs ih =>
    intro pw fc h
    refine ih (absorb allSys c pw (some h0)) fc ?_
    simp only [absorb]
    split
    · exact List.mem_append_left _ h
    · exact h

theorem claimAll_work_mem (allSys : List String) (c : String) :
    ∀ (hs : List String) (pw : List (String × String) × List (String × String))
      (fc : String × String), fc ∈ (claimAll allSys c pw hs).2 →
      fc ∈ pw.2 ∨ (fc.2 = c ∧ fc.1 ∈ hs ∧
        is_system_header fc.1 allSys = false) := by
  intro hs
  induction hs with
  | nil => intro pw fc h; exact Or.inl h
  | cons h0 hs ih =>
    intro pw fc h
    rcases ih (absorb allSys c pw (some h0)) fc h with h1 | h1
    · simp only [absorb] at h1
      by_cases hcond : lookupKV h0 pw.1 = none ∧
          is_system_header h0 allSys = false
      · rw [if_pos hcond] at h1
        rcases List.mem_append.mp h1 with h2 | h2
        · exact Or.inl h2
        · rw [List.mem_singleton] at h2
          subst h2
          exact Or.inr ⟨rfl, List.mem_cons_self h0 hs, hcond.2⟩
      · rw [if_neg hcond] at h1
        exact Or.inl h1
    · exact Or.inr ⟨h1.1, List.mem_cons_of_mem h0 h1.2.1, h1.2.2⟩

theorem claimAll_keys_sub (allSys : List String) (c : String) :
    ∀ (hs : List String) (pw : List (String × String) × List (String × String))
      (x : String), x ∈ keysOf (claimAll allSys c pw hs).1 →
      x ∈ keysOf pw.1 ∨ x ∈ hs := by
  intro hs
  induction hs with
  | nil => intro pw x h; exact Or.inl h
  | cons h0 hs ih =>
    intro pw x h
    rcases ih (absorb allSys c pw (some h0)) x h with h1 | h1
    · simp only [absorb] at h1
      rcases (mem_keysOf_insertKV h0 x c pw.1).mp h1 with h2 | h2
      · exact Or.inl h2
      · exact Or.inr (h2 ▸ List.mem_cons_self h0 hs)
    · exact Or.inr (List.mem_cons_of_mem h0 h1)

theorem claimAll_key_witness (allSys : List String) (c : String) :
    ∀ (hs : List String) (pw : List (String × String) × List (String × String))
      (h : String), h ∈ keysOf (claimAll allSys c pw hs).1 →
      is_system_header h allSys = false →
      h ∈ keysOf pw.1 ∨ ∃ c', (h, c') ∈ (claimAll allSys c pw hs).2 := by
  intro hs
  induction hs with
  | nil => intro pw h hk hsys; exact Or.inl hk
  | cons h0 hs ih =>
    intro pw h hk hsys
    rcases ih (absorb allSys c pw (some h0)) h hk hsys with h1 | h1
    · simp only [absorb] at h1
      rcases (mem_keysOf_insertKV h0 h c pw.1).mp h1 with h2 | h2
      · exact Or.inl h2
      · subst h2
        by_cases hl : lookupKV h pw.1 = none
        · have hcond : lookupKV h pw.1 = none ∧
              is_system_header h allSys = false := ⟨hl, hsys⟩
          refine Or.inr ⟨c, ?_⟩
          refine claimAll_work_mono allSys c hs (absorb allSys c pw (some h))
            (h, c) ?_
          simp only [absorb, if_pos hcond]
          exact List.mem_append_right _ (List.mem_singleton.mpr rfl)
        · cases hv : lookupKV h pw.1 with
          | none => exact absurd hv hl
          | some v =>
            exact Or.inl (List.mem_map_of_mem Prod.fst
              (mem_of_lookupKV_eq_some hv))
    · exact Or.inr h1

theorem mem_eraseIdx_or {α : Type} (d : α) :
    ∀ (l : List α) (i : Nat) (a : α), a ∈ l →
      a ∈ l.eraseIdx i ∨ a = l.getD i d := by
  intro l
  induction l with
  | nil => intro i a h; cases h
  | cons hd tl ih =>
    intro i a h
    cases i with
    | zero =>
      rcases List.mem_cons.mp h with rfl | h1
      · exact Or.inr rfl
      · exact Or.inl h1
    | succ j =>
      rcases List.mem_cons.mp h with rfl | h1
      · exact Or.inl (List.mem_cons_self _ _)
      · rcases ih j a h1 with h2 | h2
        · exact Or.inl (List.mem_cons_of_mem _ h2)
        · exact Or.inr h2

/-- The schedule-independent discovery relation: headers reachable from
the seed work items through include resolution, descending only through
non-system headers. -/
inductive Disc (cfg : RunCfg) (D : List String)
    (seeds : List (String × String)) : String → Prop
  | seed (f c h : String) : (f, c) ∈ seeds → h ∈ childrenOf cfg D f →
      Disc cfg D seeds h
  | step (f h : String) : Disc cfg D seeds f →
      is_system_header f cfg.allSystemDirs = false →
      h ∈ childrenOf cfg D f → Disc cfg D seeds h

/-- The run invariant for the confluence argument: well-formed resolver
state, every work context resolving to the uniform directory list, the
discovery set and work queue sound with respect to `Disc`, and the two
completeness obligations (every seed and every claimed non-system
header is either still pending or fully expanded). -/
structure InvAll (cfg : RunCfg) (D : List String)
    (seeds : List (String × String)) (st : RunState) : Prop where
  rsInv : InvRS cfg.fs D st.rs
  wc : ∀ fc ∈ st.work, lookupKV fc.2 cfg.fileToIncludes = some D
  soundKeys : ∀ h ∈ keysOf st.processed, Disc cfg D seeds h
  soundWork : ∀ fc ∈ st.work, fc ∈ seeds ∨
    (Disc cfg D seeds fc.1 ∧ is_system_header fc.1 cfg.allSystemDirs = false)
  n1 : ∀ fc ∈ seeds, fc ∈ st.work ∨
    ∀ h ∈ childrenOf cfg D fc.1, h ∈ keysOf st.processed
  n2 : ∀ h ∈ keysOf st.processed,
    is_system_header h cfg.allSystemDirs = false →
    (∃ c, (h, c) ∈ st.work) ∨
    ∀ h' ∈ childrenOf cfg D h, h' ∈ keysOf st.processed

theorem stepRun_invAll (cfg : RunCfg) (D : List String)
    (seeds : List (String × String)) (st : RunState) (n : Nat)
    (hinv : InvAll cfg D seeds st) :
    InvAll cfg D seeds (stepRun cfg st n) := by
  unfold stepRun
  cases hw : st.work with
  | nil => exact hinv
  | cons w ws =>
    dsimp only
    have hlen : 0 < (w :: ws).length := by simp
    have hiLt : n % (w :: ws).length < (w :: ws).length := Nat.mod_lt n hlen
    have hget : (w :: ws).getD (n % (w :: ws).length) ("", "") =
        (w :: ws)[n % (w :: ws).length] := List.getD_eq_getElem _ _ hiLt
    have hitm : (w :: ws).getD (n % (w :: ws).length) ("", "") ∈ w :: ws := by
      rw [hget]
      exact List.getElem_mem hiLt
    have hitmW : (w :: ws).getD (n % (w :: ws).length) ("", "") ∈ st.work := by
      rw [hw]
      exact hitm
    have hctx := hinv.wc _ hitmW
    set itm := (w :: ws).getD (n % (w :: ws).length) ("", "") with hitmdef
    set W' := (w :: ws).eraseIdx (n % (w :: ws).length) with hW'
    have hrs' : InvRS cfg.fs D
        (RunState.mk st.rs st.processed W').rs := hinv.rsInv
    obtain ⟨hpair, hrsOut⟩ := processItem_char cfg D
      (RunState.mk st.rs st.processed W') itm hrs' hctx
    have hproc : (processItem cfg (RunState.mk st.rs st.processed W')
        itm).processed =
        (claimAll cfg.allSystemDirs itm.2 (st.processed, W')
          (childrenOf cfg D itm.1)).1 := congrArg Prod.fst hpair
    have hwork : (processItem cfg (RunState.mk st.rs st.processed W')
        itm).work =
        (claimAll cfg.allSystemDirs itm.2 (st.processed, W')
          (childrenOf cfg D itm.1)).2 := congrArg Prod.snd hpair
    have hsubW : ∀ fc : String × String, fc ∈ W' → fc ∈ st.work := by
      intro fc hfc
      rw [hw]
      exact (List.eraseIdx_sublist (w :: ws) (n % (w :: ws).length)).mem hfc
    have hDiscItm : ∀ h ∈ childrenOf cfg D itm.1, Disc cfg D seeds h := by
      intro h hh
      rcases hinv.soundWork itm hitmW with hs | hs
      · exact Disc.seed itm.1 itm.2 h hs hh
      · exact Disc.step itm.1 h hs.1 hs.2 hh
    refine ⟨hrsOut, ?_, ?_, ?_, ?_, ?_⟩
    · -- wc
      intro fc hfc
      rw [hwork] at hfc
      rcases claimAll_work_mem _ _ _ _ fc hfc with h1 | h1
      · exact hinv.wc fc (hsubW fc h1)
      · rw [h1.1]
        exact hctx
    · -- soundKeys
      intro h hk
      rw [hproc] at hk
      rcases claimAll_keys_sub _ _ _ _ h hk with h1 | h1
      · exact hinv.soundKeys h h1
      · exact hDiscItm h h1
    · -- soundWork
      intro fc hfc
      rw [hwork] at hfc
      rcases claimAll_work_mem _ _ _ _ fc hfc with h1 | h1
      · exact hinv.soundWork fc (hsubW fc h1)
      · exact Or.inr ⟨hDiscItm fc.1 h1.2.1, h1.2.2⟩
    · -- n1
      intro fc hfc
      rcases hinv.n1 fc hfc with hin | hdone
      · rw [hw] at hin
        rcases mem_eraseIdx_or ("", "") (w :: ws) (n % (w :: ws).length)
            fc hin with h1 | h1
        · refine Or.inl ?_
          rw [hwork]
          exact claimAll_work_mono _ _ _ _ fc h1
        · refine Or.inr ?_
          intro h hh
          rw [hproc]
          rw [← hitmdef] at h1
          rw [h1] at hh
          exact claimAll_mem_claimed _ _ _ _ h hh
      · refine Or.inr ?_
        intro h hh
        rw [hproc]
        exact claimAll_keys_mono _ _ _ _ h (hdone h hh)
    · -- n2
      intro h hk hsys
      rw [hproc] at hk
      rcases claimAll_key_witness _ _ _ _ h hk hsys with h1 | h1
      · -- already claimed before this step
        rcases hinv.n2 h h1 hsys with ⟨c, hin⟩ | hdone
        · rw [hw] at hin
          rcases mem_eraseIdx_or ("", "") (w :: ws) (n % (w :: ws).length)
              (h, c) hin with h2 | h2
          · refine Or.inl ⟨c, ?_⟩
            rw [hwork]
            exact claimAll_work_mono _ _ _ _ (h, c) h2
          · refine Or.inr ?_
            intro h' hh'
            rw [hproc]
            rw [← hitmdef] at h2
            have : h = itm.1 := congrArg Prod.fst h2
            rw [this] at hh'
            exact claimAll_mem_claimed _ _ _ _ h' hh'
        · refine Or.inr ?_
          intro h' hh'
          rw [hproc]
          exact claimAll_keys_mono _ _ _ _ h' (hdone h' hh')
      · rcases h1 with ⟨c', hwit⟩
        refine Or.inl ⟨c', ?_⟩
        rw [hwork]
        exact hwit

theorem runSched_invAll (cfg : RunCfg) (D : List String)
    (seeds : List (String × String)) (sched : List Nat) (st : RunState)
    (hinv : InvAll cfg D seeds st) :
    InvAll cfg D seeds (runSched cfg sched st) := by
  induction sched generalizing st with
  | nil => exact hinv
  | cons n rest ih => exact ih _ (stepRun_invAll cfg D seeds st n hinv)

/-- At quiescence the discovery set is exactly `Disc`. -/
theorem final_keys_iff_disc (cfg : RunCfg) (D : List String)
    (seeds : List (String × String)) (sched : List Nat) (st : RunState)
    (hinv : InvAll cfg D seeds st)
    (hfin : (runSched cfg sched st).work = []) :
    ∀ h, h ∈ keysOf (runSched cfg sched st).processed ↔
      Disc cfg D seeds h := by
  have hinv' := runSched_invAll cfg D seeds sched st hinv
  intro h
  constructor
  · exact hinv'.soundKeys h
  · intro hd
    induction hd with
    | seed f c h0 hseed hchild =>
      rcases hinv'.n1 (f, c) hseed with hin | hdone
      · rw [hfin] at hin
        cases hin
      · exact hdone h0 hchild
    | step f h0 hdf hsys hchild ihf =>
      rcases hinv'.n2 f ihf hsys with ⟨c, hin⟩ | hdone
      · rw [hfin] at hin
        cases hin
      · exact hdone h0 hchild

/-- C9 (amended): when every seeded translation unit resolves to the
same search-directory list `D`, the set of discovered header paths at
quiescence is the same for any two schedules (thread interleavings):
both equal the reachability relation `Disc`.  Without that uniformity
the set can differ between schedules — see the counterexample. -/
theorem claimC9_membership_schedule_independent (cfg : RunCfg)
    (D : List String) (st : RunState) (sched1 sched2 : List Nat)
    (hp : st.processed = [])
    (hrs : InvRS cfg.fs D st.rs)
    (hwc : ∀ fc ∈ st.work, lookupKV fc.2 cfg.fileToIncludes = some D)
    (hfin1 : (runSched cfg sched1 st).work = [])
    (hfin2 : (runSched cfg sched2 st).work = []) :
    ∀ h, h ∈ keysOf (runSched cfg sched1 st).processed ↔
         h ∈ keysOf (runSched cfg sched2 st).processed := by
  have hinv : InvAll cfg D st.work st := by
    refine ⟨hrs, hwc, ?_, ?_, ?_, ?_⟩
    · intro h hk
      rw [hp] at hk
      cases hk
    · intro fc hfc
      exact Or.inl hfc
    · intro fc hfc
      exact Or.inl hfc
    · intro h hk
      rw [hp] at hk
      cases hk
  intro h
  rw [final_keys_iff_disc cfg D st.work sched1 st hinv hfin1 h,
    final_keys_iff_disc cfg D st.work sched2 st hinv hfin2 h]

/-- A snapshot with two translation units in `/d` that share the local
header `h.h`, whose `<x.h>` include resolves differently under the two
units' `-I` directories (`/p1` vs `/p2`). -/
def fsSharedHeader : FSModel :=
  { exists_ := fun p => p = "/d/a.cpp" || p = "/d/b.cpp" || p = "/d/h.h" ||
      p = "/p1/x.h" || p = "/p2/x.h"
    canonicalize := fun p =>
      if p = "/d/a.cpp" || p = "/d/b.cpp" || p = "/d/h.h" ||
          p = "/p1/x.h" || p = "/p2/x.h" then some p else none
    read := fun p =>
      if p = "/d/a.cpp" then some "#include \"h.h\""
      else if p = "/d/b.cpp" then some "#include \"h.h\""
      else if p = "/d/h.h" then some "#include <x.h>"
      else none }

/-- First translation unit: `-I /p1`. -/
def cmdTUa : CompileCommand :=
  { directory := "/d", file := "/d/a.cpp", command := none,
    arguments := some ["-I", "/p1"], output := none }

/-- Second translation unit: `-I /p2`. -/
def cmdTUb : CompileCommand :=
  { directory := "/d", file := "/d/b.cpp", command := none,
    arguments := some ["-I", "/p2"], output := none }

def cfgShared : RunCfg := mkRunCfg id id fsSharedHeader [cmdTUa, cmdTUb]

def initShared : RunState := initRunState fsSharedHeader [cmdTUa, cmdTUb]

/-- C9 counterexample: two complete runs of the same manifest and
snapshot whose discovered header sets differ — the schedule decides
which translation unit claims `/d/h.h`, and that context's `-I` list
decides whether `<x.h>` resolves to `/p1/x.h` or `/p2/x.h`.  Membership
of the output set is therefore not schedule independent. -/
theorem claimC9_counterexample :
    (runSched cfgShared [0, 0, 0, 0] initShared).work = [] ∧
    (runSched cfgShared [1, 1, 0, 0] initShared).work = [] ∧
    "/p1/x.h" ∈ keysOf (runSched cfgShared [0, 0, 0, 0] initShared).processed ∧
    "/p1/x.h" ∉ keysOf (runSched cfgShared [1, 1, 0, 0] initShared).processed := by
  refine ⟨rfl, rfl, ?_, ?_⟩ <;> decide

/-- C9 witness: the amended theorem applied to the single-unit
`/usr/src` manifest (trivially uniform: `D = []`) under two different
complete schedules, instantiated at the two headers of the example. -/
theorem claimC9_witness :
    ("/usr/src/x.h" ∈ keysOf (runSched cfgUsr [0, 0, 0] initUsr).processed ↔
     "/usr/src/x.h" ∈
       keysOf (runSched cfgUsr [0, 0, 0, 0] initUsr).processed) ∧
    ("/usr/src/y.h" ∈ keysOf (runSched cfgUsr [0, 0, 0] initUsr).processed ↔
     "/usr/src/y.h" ∈
       keysOf (runSched cfgUsr [0, 0, 0, 0] initUsr).processed) := by
  have h := claimC9_membership_schedule_independent cfgUsr [] initUsr
    [0, 0, 0] [0, 0, 0, 0] rfl (InvRS_empty fsUsrSrc [])
    (by decide) rfl rfl
  exact ⟨h "/usr/src/x.h", h "/usr/src/y.h"⟩
